import Mathlib

/-!
Verification development for the diskdive disk-usage analyzer.

The Go sources are shallowly embedded:

* `GoNode` embeds `internal/model/node.go`'s `Node` struct.  The Go struct
  carries a `Parent *Node` back-pointer; in this purely functional embedding a
  node is addressed by its position (a list of child indices) inside the
  rooted tree, and "the ancestors of N" are the nodes at the proper prefixes
  of N's index path.  The change-tracking fields `PrevSize`, `IsNew`,
  `HasGrew`, `HasShrunk` are not read or written by any operation modelled
  here (MarkDeleted, AddChild, ComputeSizes, SortBySize, the controller's
  deletion path) and are omitted from the embedding.
* Sizes are Go `int64`; they stay far below 2^63 in every modelled scenario,
  so they are embedded as unbounded `Int` without a wrap-around.
* Mutating Go methods become functions `GoNode → ... → GoNode`.
-/

/-- Embeds `model.Node` (src/internal/model/node.go): `Path` (as its list of
components), `Name`, `Size`, `IsDir`, `IsDeleted`, `DeletedSize`, `Children`.
The `Parent` pointer is positional (see module comment). -/
inductive GoNode : Type where
  | mk (path : List String) (name : String) (size : Int) (isDir : Bool)
       (isDeleted : Bool) (deletedSize : Int) (children : List GoNode)

def GoNode.path : GoNode → List String
  | .mk p _ _ _ _ _ _ => p

def GoNode.name : GoNode → String
  | .mk _ n _ _ _ _ _ => n

def GoNode.size : GoNode → Int
  | .mk _ _ s _ _ _ _ => s

def GoNode.isDir : GoNode → Bool
  | .mk _ _ _ d _ _ _ => d

def GoNode.isDeleted : GoNode → Bool
  | .mk _ _ _ _ del _ _ => del

def GoNode.deletedSize : GoNode → Int
  | .mk _ _ _ _ _ ds _ => ds

def GoNode.children : GoNode → List GoNode
  | .mk _ _ _ _ _ _ cs => cs

/-- Embeds `Node.TotalSize`: returns the cached `Size` field. -/
def GoNode.totalSize (n : GoNode) : Int := n.size

/-- The node of `t` sitting at index path `p` (root is `[]`). -/
def getAt : GoNode → List Nat → Option GoNode
  | n, [] => some n
  | n, i :: rest =>
    match n.children[i]? with
    | none => none
    | some c => getAt c rest

/-- Field view: `IsDeleted` of the node at `q`. -/
def deletedAt (t : GoNode) (q : List Nat) : Option Bool :=
  (getAt t q).map GoNode.isDeleted

/-- Field view: `DeletedSize` of the node at `q`. -/
def deletedSizeAt (t : GoNode) (q : List Nat) : Option Int :=
  (getAt t q).map GoNode.deletedSize

/-- Field view: `Size` of the node at `q`. -/
def sizeAt (t : GoNode) (q : List Nat) : Option Int :=
  (getAt t q).map GoNode.size

/-- The upward walk of `Node.MarkDeleted` rendered top-down: every node on
the way to the target gets `DeletedSize += s` (the Go loop
`for parent := n.Parent; parent != nil; parent = parent.Parent`), and the
target itself gets `IsDeleted = true` and `DeletedSize = s` — the Go method
assigns (`n.DeletedSize = size`), it does not accumulate. -/
def markAux : GoNode → List Nat → Int → GoNode
  | .mk pa na sz d _ _ cs, [], s => .mk pa na sz d true s cs
  | .mk pa na sz d del ds cs, i :: rest, s =>
    match cs[i]? with
    | none => .mk pa na sz d del (ds + s) cs
    | some c => .mk pa na sz d del (ds + s) (cs.set i (markAux c rest s))

/-- Embeds `Node.MarkDeleted` applied to the node of `t` at index path `p`:
if the node is absent nothing happens (the pointer receiver always exists in
Go; the controller never reaches this with a dangling path); if it is already
deleted the method returns at once; otherwise the size snapshot is taken and
propagated as in `markAux`. -/
def markDeletedAt (t : GoNode) (p : List Nat) : GoNode :=
  match getAt t p with
  | none => t
  | some tgt => if tgt.isDeleted then t else markAux t p tgt.size

/-- Embeds `Node.AddChild` called on the node of `t` at index path `p`.  The
Go method appends `child` to the receiver's `Children`, sets `child.Parent`
(positional here), and adds `child.TotalSize()` to the receiver's `Size` and
to the `Size` of every ancestor (`for parent := n; parent != nil; ...`).
`childHadParent` records whether the Go `child.Parent` pointer was non-nil at
call time: the method never reads it, performs no check, and has no error
return, so the argument is unused. -/
def addChildAt : GoNode → List Nat → GoNode → Bool → GoNode
  | .mk pa na sz d del ds cs, [], child, _ =>
      .mk pa na (sz + child.totalSize) d del ds (cs ++ [child])
  | .mk pa na sz d del ds cs, i :: rest, child, b =>
    match cs[i]? with
    | none => .mk pa na sz d del ds cs
    | some c => .mk pa na (sz + child.totalSize) d del ds
        (cs.set i (addChildAt c rest child b))

/-- Error taxonomy of the spec, as far as the claims need it. -/
inductive GoErr : Type where
  | canceled
  | invariantViolation
  | other (msg : String)
deriving DecidableEq

/-- Follows the spec's words (§4.1 `add_child`), for comparison with the
code's `addChildAt`: "Fails with `InvariantViolation` if `child` already has
a parent", otherwise appends and propagates exactly as the code does. -/
def addChildSpec (t : GoNode) (p : List Nat) (child : GoNode)
    (childHadParent : Bool) : Except GoErr GoNode :=
  if childHadParent then .error .invariantViolation
  else .ok (addChildAt t p child false)

mutual
/-- Embeds `Node.ComputeSizes` / `computeSizesWithYield`, returning the
updated tree together with the Go return value.  The `counter` /
`runtime.Gosched()` pair in the Go source is a cooperative-scheduling hint
with no effect on any field and is dropped.  The Go loop accumulates
`total += child.computeSizesWithYield(...)` left to right; the right fold
below produces the same `Int` sum. -/
def computeSizes : GoNode → GoNode × Int
  | .mk pa na sz d del ds cs =>
    if d then
      let r := computeSizesList cs
      (.mk pa na r.2 d del ds r.1, r.2)
    else (.mk pa na sz d del ds cs, sz)

def computeSizesList : List GoNode → List GoNode × Int
  | [] => ([], 0)
  | c :: cs =>
    let rc := computeSizes c
    let rcs := computeSizesList cs
    (rc.1 :: rcs.1, rc.2 + rcs.2)
end

mutual
/-- Erases the deletion-tracking fields everywhere, keeping `Path`, `Name`,
`Size`, `IsDir` and the child structure: two trees with equal `stripDel`
agree on everything except `IsDeleted` / `DeletedSize`. -/
def stripDel : GoNode → GoNode
  | .mk pa na sz d _ _ cs => .mk pa na sz d false 0 (stripDelList cs)

def stripDelList : List GoNode → List GoNode
  | [] => []
  | c :: cs => stripDel c :: stripDelList cs
end

mutual
/-- Scanned trees never hang children off a file node (`buildTree` links an
entry under the node at its parent path, which the walker only emits for
directories). -/
def wfNode : GoNode → Bool
  | .mk _ _ _ d _ _ cs => (d || cs.isEmpty) && wfList cs

def wfList : List GoNode → Bool
  | [] => true
  | c :: cs => wfNode c && wfList cs
end

mutual
/-- A freshly scanned tree: no node is marked deleted and every
`DeletedSize` is zero (the walker constructs nodes with both fields at their
zero values). -/
def unmarked : GoNode → Bool
  | .mk _ _ _ _ del ds cs => !del && ds == 0 && unmarkedList cs

def unmarkedList : List GoNode → Bool
  | [] => true
  | c :: cs => unmarked c && unmarkedList cs
end

mutual
/-- Embeds the controller's `findNodeByPath` (preorder: the node itself,
then each child subtree in order), returning the index path of the first
node whose `Path` equals `path` so the functional update can be applied
where the Go code mutates through the pointer. -/
def locateByPath : GoNode → List String → Option (List Nat)
  | .mk pa _ _ _ _ _ cs, path =>
    if pa = path then some [] else locateList cs path 0

def locateList : List GoNode → List String → Nat → Option (List Nat)
  | [], _, _ => none
  | c :: cs, path, i =>
    match locateByPath c path with
    | some q => some (i :: q)
    | none => locateList cs path (i + 1)
end

/-- One step of Go's insertion sort for `model.SortBySize`'s comparator
`nodes[i].TotalSize() > nodes[j].TotalSize()`: the element is inserted after
every earlier element that is strictly larger, and before the first element
that is not — so elements of equal `TotalSize` keep their input order,
exactly as Go's `sort.Slice` behaves on slices shorter than 12 elements
(which it insertion-sorts).  For longer slices Go switches to an unstable
pdqsort; that agrees with this function on the sorted-descending and
permutation properties proved below, though not necessarily on the relative
order of equal-sized nodes. -/
def goInsertBySize (x : GoNode) : List GoNode → List GoNode
  | [] => [x]
  | y :: ys =>
    if y.totalSize > x.totalSize then y :: goInsertBySize x ys
    else x :: y :: ys

/-- Embeds `model.SortBySize` (src/internal/model/tree.go): `sort.Slice`
with the comparator `TotalSize() >` — size descending, and nothing else; the
comparator never looks at `Name`. -/
def sortBySize : List GoNode → List GoNode
  | [] => []
  | x :: xs => goInsertBySize x (sortBySize xs)

/-! ## Walker (src/internal/scanner/walker.go, the fastwalk variant used by
the lumipallolabs controller) -/

/-- One surviving filesystem entry as the fastwalk callback records it
(`nodeEntry`): per-entry I/O errors, the root itself, skipped mount points
and already-counted hardlinks never reach this list. -/
structure WalkEntry : Type where
  path : List String
  name : String
  size : Int
  isDir : Bool
deriving DecidableEq

/-- `filepath.Dir` on a component list. -/
def dirOf (p : List String) : List String := p.dropLast

/-- `filepath.Base` on a component list. -/
def baseOf (p : List String) : String := p.getLastD ""

/-- Embeds `Walker.buildTree`'s linking: entry `e` becomes a child of the
node whose path is `dirOf e.path`, children appear in entry order, and an
entry whose parent path matches no node is dropped.  The Go code does this
with one mutable map and two passes; the recursion below produces the same
tree reachable from the root.  The fuel is an upper bound on the depth: each
level down the tree consumes entries of a strictly longer path, so
`entries.length + 1` levels always suffice. -/
def buildNode (entries : List WalkEntry) :
    Nat → List String → String → Int → Bool → GoNode
  | 0, pa, na, sz, d => .mk pa na sz d false 0 []
  | fuel + 1, pa, na, sz, d =>
    .mk pa na sz d false 0
      ((entries.filter (fun e => dirOf e.path == pa)).map
        (fun e => buildNode entries fuel e.path e.name e.size e.isDir))

/-- Embeds `Walker.buildTree`: the root node has `Size` 0 and `IsDir` true,
its name is the base of the root path. -/
def buildTree (rootPath : List String) (entries : List WalkEntry) : GoNode :=
  buildNode entries (entries.length + 1) rootPath (baseOf rootPath) 0 true

/-- What `fastwalk.Walk` handed back: the entries the callback collected and
the error value of the walk. -/
structure WalkOutcome : Type where
  collected : List WalkEntry
  walkErr : Option GoErr

/-- Embeds the tail of `Walker.Scan` after `fastwalk.Walk` returns:

```
if walkErr != nil && walkErr != ctx.Err() {
        return nil, walkErr
}
rootNode := w.buildTree(absRoot, entries)
return rootNode, nil
```

`ctxErr` is `ctx.Err()` at that moment. -/
def scanDispatch (rootPath : List String) (out : WalkOutcome)
    (ctxErr : Option GoErr) : Except GoErr GoNode :=
  if out.walkErr ≠ none ∧ out.walkErr ≠ ctxErr then
    .error (out.walkErr.getD .canceled)
  else .ok (buildTree rootPath out.collected)

/-- The walk outcome when the context is cancelled after `k` callbacks: the
callback checks `ctx.Done()` first and returns `ctx.Err()`, so fastwalk
stops with `walkErr = ctx.Err() = Canceled` and only the first `k` entries
were collected.  If the walk finished before the cancellation there is no
error and everything was collected. -/
def cancelOutcome (entries : List WalkEntry) (k : Nat) : WalkOutcome :=
  ⟨entries.take k, if k < entries.length then some .canceled else none⟩

/-- Embeds `Walker.Scan` over a directory whose surviving entries are
`entries`, with an optional cancellation after `k` of them. -/
def scanModel (rootPath : List String) (entries : List WalkEntry)
    (cancelAfter : Option Nat) : Except GoErr GoNode :=
  match cancelAfter with
  | none => scanDispatch rootPath ⟨entries, none⟩ none
  | some k =>
    scanDispatch rootPath (cancelOutcome entries k)
      (if k < entries.length then some .canceled else none)

/-! ## Controller (src/internal/core/controller.go, state.go) -/

/-- `model.Drive` restricted to the field the claims touch. -/
structure DriveM : Type where
  path : String
deriving DecidableEq

/-- `core.ScanPhase`. -/
inductive Phase : Type where
  | idle
  | scanning
  | computingSizes
  | complete
deriving DecidableEq

/-- The controller fields read or written by `SelectDrive` and `StartScan`:
drive list and selection, custom path, the freed state
(`FreedState{Session, Lifetime}`), the scan phase, the published root and
the stats manager's saved default drive.  The event channel, tree-navigation
state and scanner handle are not modelled. -/
structure CState : Type where
  drives : List DriveM
  selectedDrive : Int
  customPath : String
  session : Int
  lifetime : Int
  phase : Phase
  root : Option GoNode
  defaultDrive : String

/-- Embeds `Controller.SelectDrive`: out-of-range indices change nothing
(the Go method returns nil without touching state); otherwise the selection
moves, `freed.Session` is zeroed, the root is dropped and the drive is saved
as default.  `freed.Lifetime` is not written. -/
def selectDrive (c : CState) (idx : Int) : CState :=
  if idx < 0 ∨ (c.drives.length : Int) ≤ idx then c
  else
    match c.drives[idx.toNat]? with
    | none => c
    | some d =>
      { c with selectedDrive := idx, session := 0, root := none,
               defaultDrive := d.path }

/-- The scan-path resolution shared by `StartScan`, `StartWatching` and
`getDiskFree`: the custom path if set, else the selected drive's path, else
empty. -/
def scanPathOf (c : CState) : String :=
  if c.customPath ≠ "" then c.customPath
  else
    if 0 ≤ c.selectedDrive ∧ c.selectedDrive < (c.drives.length : Int) then
      (c.drives[c.selectedDrive.toNat]?.map DriveM.path).getD ""
    else ""

/-- Embeds the synchronous part of `Controller.StartScan` (the state reset
performed under the lock before `runScan` is spawned): with no scan path it
returns `(nil, nil)` and changes nothing; otherwise the scan state is reset
to `PhaseScanning` and the published root and tree state are dropped.  The
returned flag says whether a scan was started.  `freed` is not touched. -/
def startScan (c : CState) : CState × Bool :=
  if scanPathOf c = "" then (c, false)
  else ({ c with phase := .scanning, root := none }, true)

/-- The slice of controller state `handleDeletion` works on: the published
tree and the freed counters. -/
structure DelState : Type where
  tree : GoNode
  session : Int
  lifetime : Int

/-- `core.DeletionDetectedEvent` (events.go), minus the disk-free probe. -/
structure DelEvent : Type where
  path : List String
  size : Int
  sessionFreed : Int
  totalFreed : Int
deriving DecidableEq

/-- Embeds `Controller.handleDeletion`: look the path up with
`findNodeByPath`; drop the event if absent or already deleted; otherwise
snapshot `size := node.TotalSize()`, run `MarkDeleted`, add the size to both
freed counters and emit one `DeletionDetectedEvent`.  (The unreachable inner
`none` arm mirrors that `locateByPath` only answers with live positions.) -/
def handleDeletion (s : DelState) (path : List String) :
    DelState × Option DelEvent :=
  match locateByPath s.tree path with
  | none => (s, none)
  | some ip =>
    match getAt s.tree ip with
    | none => (s, none)
    | some node =>
      if node.isDeleted then (s, none)
      else
        let size := node.totalSize
        let ss := s.session + size
        let lf := s.lifetime + size
        (⟨markDeletedAt s.tree ip, ss, lf⟩, some ⟨path, size, ss, lf⟩)

/-- A run of the watcher loop's deletion branch over a sequence of incoming
`Deleted` events, collecting every emitted `DeletionDetectedEvent`. -/
def runDeletions (s : DelState) : List (List String) → DelState × List DelEvent
  | [] => (s, [])
  | p :: ps =>
    let r := handleDeletion s p
    let rest := runDeletions r.1 ps
    (rest.1, r.2.toList ++ rest.2)

/-! ## Treemap layout (src/internal/ui/treemap.go)

The Go code computes in `float64`; the embedding computes in `ℚ`.  Every
concrete scenario below stays far away from representation boundaries, and
the properties proved are threshold comparisons on small integers, so the
idealization is faithful there. -/

/-- A rectangle as the squarify library handles it (`squarify.Rect`). -/
structure LRect : Type where
  x : ℚ
  y : ℚ
  w : ℚ
  h : ℚ
deriving DecidableEq

/-- `ui.Block`: the node is identified by its index in the sorted item list
(`none` for the grouped "N more" placeholder). -/
structure LBlock : Type where
  nodeIdx : Option Nat
  x : Int
  y : Int
  width : Int
  height : Int
  isGrouped : Bool
  groupCount : Nat
  groupSize : Int
deriving DecidableEq

/-- `math.Floor`, written out as integer division of the reduced fraction so
the kernel can evaluate it (`Rat.floor_def` identifies it with `⌊q⌋`). -/
def qFloor (q : ℚ) : Int := q.num / q.den

/-- `math.Round`: round half away from zero. -/
def goRound (q : ℚ) : Int :=
  if 0 ≤ q then qFloor (q + 1 / 2) else -qFloor (-q + 1 / 2)

/-- Go `int64(f)`: truncate toward zero. -/
def goTrunc (q : ℚ) : Int :=
  if 0 ≤ q then qFloor q else -qFloor (-q)

/-- The integer width the min-size check uses:
`int(math.Floor(block.X+block.W)) - int(math.Floor(block.X))`. -/
def intWOf (r : LRect) : Int := qFloor (r.x + r.w) - qFloor r.x

/-- The integer height the min-size check uses. -/
def intHOf (r : LRect) : Int := qFloor (r.y + r.h) - qFloor r.y

/-- The interface of `squarify.Squarify` as `layout` calls it (with
`MaxDepth: 1` every returned block has depth 0, so the Go meta filter keeps
all of them): the display items' sizes go in, sub-rectangles tagged with the
item's index come out. -/
def SqFn : Type := List ℚ → LRect → List (LRect × Nat)

/-- The minimum-dimension check of the search loop: all main blocks must
reach `minBlockWidth = 8` and `minBlockHeight = 3`. -/
def allFitB (bs : List (LRect × Nat)) : Bool :=
  bs.all (fun b => decide (8 ≤ intWOf b.1) && decide (3 ≤ intHOf b.1))

/-- A configuration accepted by the search loop. -/
structure LoopCfg : Type where
  blocks : List (LRect × Nat)
  numVisible : Nat
  grouped : Bool
deriving DecidableEq

/-- One iteration of the `for maxVisible >= 2` search loop of `layout` at
candidate `mv`: decide whether a grouped strip is reserved (2 or more items
would be hidden), shrink the main rectangle accordingly, run squarify on the
visible prefix, and accept the configuration when every main block reaches
the minimum integer dimensions. -/
def layoutTry (sq : SqFn) (items : List ℚ) (contentW contentH : Int)
    (mv : Nat) : Option LoopCfg :=
  let len := items.length
  let numVisible0 := min mv len
  if 2 ≤ len - numVisible0 then
    let numVisible := min (mv - 1) len
    let bs := sq (items.take numVisible)
      ⟨0, 0, (contentW : ℚ), ((contentH - 3 : Int) : ℚ)⟩
    if allFitB bs then some ⟨bs, numVisible, decide (2 ≤ len - numVisible)⟩
    else none
  else
    let bs := sq (items.take numVisible0) ⟨0, 0, (contentW : ℚ), (contentH : ℚ)⟩
    if allFitB bs then some ⟨bs, numVisible0, false⟩ else none

/-- The search loop itself: try each `maxVisible` from the start value down,
stopping at the first accepted configuration; `none` means the loop ran out
(fewer than 2 items fit). -/
def layoutLoop (sq : SqFn) (items : List ℚ) (contentW contentH : Int) :
    Nat → Option LoopCfg
  | 0 => none
  | 1 => none
  | m + 2 =>
    match layoutTry sq items contentW contentH (m + 2) with
    | some cfg => some cfg
    | none => layoutLoop sq items contentW contentH (m + 1)

/-- The float→int conversion of one squarify block, with the clipping and
the too-small / out-of-bounds skip of the conversion loop in `layout`. -/
def convertOne (contentW contentH : Int) (r : LRect) (idx : Nat) :
    Option LBlock :=
  let x0 := qFloor r.x
  let y0 := qFloor r.y
  let endX := qFloor (r.x + r.w)
  let endY := goRound (r.y + r.h)
  let w0 := endX - x0
  let h0 := endY - y0
  let x := if x0 < 0 then 0 else x0
  let y := if y0 < 0 then 0 else y0
  let w := if contentW < endX then contentW - x else w0
  let h := if contentH < endY then contentH - y else h0
  if w < 1 ∨ h < 1 ∨ contentW ≤ x ∨ contentH ≤ y then none
  else some ⟨some idx, x, y, w, h, false, 0, 0⟩

/-- The conversion loop: emitted blocks in input order, together with the
final `maxMainBlockEndY` (the largest `y + h` of an emitted main block,
starting from 0). -/
def convertAll (contentW contentH : Int) :
    List (LRect × Nat) → List LBlock × Int
  | [] => ([], 0)
  | (r, i) :: rest =>
    let acc := convertAll contentW contentH rest
    match convertOne contentW contentH r i with
    | none => acc
    | some b => (b :: acc.1, max (b.y + b.height) acc.2)

/-- The grouped "N more" block exactly as `layout` first appends it:
a full-width strip of height `minBlockHeight` at the bottom. -/
def groupedBlock (contentW contentH : Int) (count : Nat) (gsize : Int) :
    LBlock :=
  ⟨none, 0, contentH - 3, contentW, 3, true, count, gsize⟩

/-- `groupSize`: the hidden items' sizes cast to `int64` and summed. -/
def groupSizeOf (items : List ℚ) (numVisible : Nat) : Int :=
  ((items.drop numVisible).map goTrunc).sum

/-- The final pass of `layout`: the first grouped block is snapped to begin
where the main blocks end and to reach the bottom of the content rect. -/
def adjustGrouped (contentH maxEnd : Int) : List LBlock → List LBlock
  | [] => []
  | b :: bs =>
    if b.isGrouped then
      { b with y := maxEnd,
               height := if contentH - maxEnd < 1 then 1 else contentH - maxEnd }
        :: bs
    else b :: adjustGrouped contentH maxEnd bs

/-- `float64(n.TotalSize())` with the divide-by-zero guard
`if size < 1 { size = 1 }`. -/
def clampOne (s : Int) : ℚ := max 1 (s : ℚ)

/-- Stable descending insertion for the item pre-sort (`sort.Slice` with
`items[i].size > items[j].size`; see `goInsertBySize` for the regime note). -/
def qInsertDesc (x : ℚ) : List ℚ → List ℚ
  | [] => [x]
  | y :: ys => if x < y then y :: qInsertDesc x ys else x :: y :: ys

/-- Stable descending sort of the clamped item sizes. -/
def sortDescQ : List ℚ → List ℚ
  | [] => []
  | x :: xs => qInsertDesc x (sortDescQ xs)

/-- Stable descending insertion on `Int`, for the preceding
`model.SortBySize` call on the child nodes. -/
def intInsertDesc (x : Int) : List Int → List Int
  | [] => [x]
  | y :: ys => if x < y then y :: intInsertDesc x ys else x :: y :: ys

/-- The `model.SortBySize` pass restricted to the sizes (the only field the
layout reads). -/
def sortIntsDesc : List Int → List Int
  | [] => []
  | x :: xs => intInsertDesc x (sortIntsDesc xs)

/-- The item-size list the layout works with: the children sorted by
`SortBySize`, clamped to a minimum size of 1, and re-sorted descending. -/
def layoutItems (childSizes : List Int) : List ℚ :=
  sortDescQ ((sortIntsDesc childSizes).map clampOne)

/-- Embeds `TreemapPanel.layout` on a directory focus node whose children
have total sizes `childSizes`, over the content rectangle
`contentW × contentH` (the Go code derives that rectangle from the panel
size by shaving borders and padding before any of the logic modelled here).
`sq` is the external squarify primitive. -/
def layoutModel (sq : SqFn) (childSizes : List Int)
    (contentW contentH : Int) : List LBlock :=
  let items := layoutItems childSizes
  let len := items.length
  match layoutLoop sq items contentW contentH (min len 15) with
  | some cfg =>
    let gb :=
      if cfg.grouped then
        [groupedBlock contentW contentH (len - cfg.numVisible)
          (groupSizeOf items cfg.numVisible)]
      else []
    let conv := convertAll contentW contentH cfg.blocks
    adjustGrouped contentH conv.2 (gb ++ conv.1)
  | none =>
    if 0 < len then
      let mainRect : LRect :=
        ⟨0, 0, (contentW : ℚ),
          if 2 < len then ((contentH - 3 : Int) : ℚ) else (contentH : ℚ)⟩
      let bs := sq (items.take 1) mainRect
      let gb :=
        if 2 < len then
          [groupedBlock contentW contentH (len - 1) (groupSizeOf items 1)]
        else []
      let conv := convertAll contentW contentH bs
      adjustGrouped contentH conv.2 (gb ++ conv.1)
    else []

/-- Worst aspect of a candidate row: `side` is the length of the side the
row is laid along, `row` the areas in the row (all positive in use).  Each
block in the row has thickness `sum/side` and length `a·side/sum`, so its
aspect is the larger of `sum²/(side²·a)` and `side²·a/sum²`. -/
def worstAspect (side : ℚ) (row : List ℚ) : ℚ :=
  let tot := row.sum
  if side = 0 ∨ tot = 0 then 0
  else
    row.foldr
      (fun a m => max m (max ((side * side * a) / (tot * tot)) ((tot * tot) / (side * side * a))))
      0

/-- Greedy row construction of the squarified algorithm: keep absorbing the
next (no larger) item while the worst aspect of the row does not get worse. -/
def buildRow (side : ℚ) (acc : List (ℚ × Nat)) :
    List (ℚ × Nat) → List (ℚ × Nat) × List (ℚ × Nat)
  | [] => (acc, [])
  | x :: rest =>
    if worstAspect side ((acc ++ [x]).map Prod.fst)
        ≤ worstAspect side (acc.map Prod.fst) then
      buildRow side (acc ++ [x]) rest
    else (acc, x :: rest)

/-- Stack a finished row along the left edge (as a column) of `rect` when
the rectangle is at least as wide as high, else along the top edge (as a
strip); returns the laid blocks and the remaining rectangle. -/
def layRow (rect : LRect) (row : List (ℚ × Nat)) :
    List (LRect × Nat) × LRect :=
  let tot := (row.map Prod.fst).sum
  if rect.h ≤ rect.w then
    let colW := if rect.h = 0 then 0 else tot / rect.h
    let blocks :=
      (row.foldl
        (fun (st : List (LRect × Nat) × ℚ) ai =>
          let hh := if colW = 0 then 0 else ai.1 / colW
          (st.1 ++ [(⟨rect.x, st.2, colW, hh⟩, ai.2)], st.2 + hh))
        ([], rect.y)).1
    (blocks, ⟨rect.x + colW, rect.y, rect.w - colW, rect.h⟩)
  else
    let rowH := if rect.w = 0 then 0 else tot / rect.w
    let blocks :=
      (row.foldl
        (fun (st : List (LRect × Nat) × ℚ) ai =>
          let ww := if rowH = 0 then 0 else ai.1 / rowH
          (st.1 ++ [(⟨st.2, rect.y, ww, rowH⟩, ai.2)], st.2 + ww))
        ([], rect.x)).1
    (blocks, ⟨rect.x, rect.y + rowH, rect.w, rect.h - rowH⟩)

/-- The row loop of the squarified algorithm (fuel bounds the number of
rows; each row consumes at least one item, so the item count suffices). -/
def squarifyAux : List (ℚ × Nat) → LRect → Nat → List (LRect × Nat)
  | [], _, _ => []
  | _ :: _, _, 0 => []
  | x :: rest, rect, fuel + 1 =>
    let r := buildRow (min rect.w rect.h) [x] rest
    let laid := layRow rect r.1
    laid.1 ++ squarifyAux r.2 laid.2 fuel

/-- Stable descending insertion on (area, index) pairs, for the library's
`Options.Sort`. -/
def pairInsertDesc (x : ℚ × Nat) : List (ℚ × Nat) → List (ℚ × Nat)
  | [] => [x]
  | y :: ys => if x.1 < y.1 then y :: pairInsertDesc x ys else x :: y :: ys

/-- Stable descending sort on (area, index) pairs. -/
def sortPairsDesc : List (ℚ × Nat) → List (ℚ × Nat)
  | [] => []
  | x :: xs => pairInsertDesc x (sortPairsDesc xs)

/-- Modelled from the spec: the external squarified-layout primitive
(`github.com/jeffwilliams/squarify`, an external collaborator whose source
is not part of this repository) — "Run a squarified partition
(Bruls–Huijsen–van Wijk) on the visible rectangle with the main blocks'
sizes", with the library's `Sort: true` option sorting the items by size
descending and areas scaled so the items fill the rectangle. -/
def squarifyModel : SqFn := fun sizes rect =>
  let pairs := sortPairsDesc (sizes.enum.map (fun p => (p.2, p.1)))
  let total := (pairs.map Prod.fst).sum
  if total ≤ 0 then []
  else
    let scale := rect.w * rect.h / total
    squarifyAux (pairs.map (fun p => (p.1 * scale, p.2))) rect
      (pairs.length + 1)

/-- A degenerate squarify oracle used to witness the parametric layout
theorems: every item is assigned the full rectangle.  It trivially satisfies
the containment and block-count contracts assumed of the primitive. -/
def sqFull : SqFn := fun sizes rect => sizes.enum.map (fun p => (rect, p.1))

/-- The containment contract of the squarify primitive: every produced block
lies inside the rectangle it was asked to partition. -/
def SqContained (sq : SqFn) : Prop :=
  ∀ sizes rect, ∀ b ∈ sq sizes rect,
    rect.x ≤ b.1.x ∧ rect.y ≤ b.1.y ∧
    b.1.x + b.1.w ≤ rect.x + rect.w ∧ b.1.y + b.1.h ≤ rect.y + rect.h

/-- The block-count contract of the squarify primitive: one block per item. -/
def SqCount (sq : SqFn) : Prop :=
  ∀ sizes rect, (sq sizes rect).length = sizes.length

/-! ## Path bookkeeping and pointwise lemmas about the tree operations -/

/-- `pathLe q p`: the index path `q` is a (not necessarily proper) prefix of
`p`, i.e. the node at `q` is the node at `p` or one of its ancestors. -/
def pathLe : List Nat → List Nat → Bool
  | [], _ => true
  | _ :: _, [] => false
  | i :: q, j :: p => i == j && pathLe q p

theorem pathLe_nil_left (p : List Nat) : pathLe [] p = true := rfl

theorem pathLe_refl : ∀ p : List Nat, pathLe p p = true
  | [] => rfl
  | _ :: p => by simp [pathLe, pathLe_refl p]

theorem list_set_of_get? {α : Type} :
    ∀ (l : List α) (i : Nat) (a : α), l[i]? = some a → l.set i a = l
  | [], i, a, h => by simp at h
  | x :: l, 0, a, h => by
    simp at h
    simp [h]
  | x :: l, i + 1, a, h => by
    simp at h
    simp [List.set, list_set_of_get? l i a h]

theorem stripDelList_eq_map : ∀ cs : List GoNode, stripDelList cs = cs.map stripDel
  | [] => rfl
  | c :: cs => by simp [stripDelList, stripDelList_eq_map cs]

theorem stripDel_size : ∀ n : GoNode, (stripDel n).size = n.size
  | .mk _ _ _ _ _ _ _ => rfl

theorem stripDel_children :
    ∀ n : GoNode, (stripDel n).children = n.children.map stripDel
  | .mk _ _ _ _ _ _ _ => by simp [stripDel, GoNode.children, stripDelList_eq_map]

theorem getAt_stripDel :
    ∀ (q : List Nat) (t : GoNode), getAt (stripDel t) q = (getAt t q).map stripDel
  | [], t => by simp [getAt]
  | i :: rest, t => by
    simp only [getAt, stripDel_children, List.getElem?_map]
    cases h : t.children[i]? with
    | none => simp
    | some c => simp [getAt_stripDel rest c]

theorem stripDel_markAux :
    ∀ (p : List Nat) (t : GoNode) (s : Int),
      stripDel (markAux t p s) = stripDel t
  | [], .mk _ _ _ _ _ _ _, _ => rfl
  | i :: rest, .mk pa na sz d del ds cs, s => by
    cases h : cs[i]? with
    | none => simp [markAux, h, stripDel]
    | some c =>
      simp only [markAux, h, stripDel, stripDelList_eq_map, List.map_set]
      rw [stripDel_markAux rest c s]
      congr 1
      apply list_set_of_get?
      simp [h]

theorem getAt_markAux_self :
    ∀ (p : List Nat) (t tgt : GoNode) (s : Int), getAt t p = some tgt →
      getAt (markAux t p s) p =
        some (.mk tgt.path tgt.name tgt.size tgt.isDir true s tgt.children)
  | [], .mk pa na sz d del ds cs, tgt, s, h => by
    simp [getAt] at h
    subst h
    rfl
  | i :: rest, .mk pa na sz d del ds cs, tgt, s, h => by
    simp only [getAt, GoNode.children] at h
    cases hc : cs[i]? with
    | none => simp [hc] at h
    | some c =>
      rw [hc] at h
      have hlen : i < cs.length := by
        by_contra hl
        rw [List.getElem?_eq_none (Nat.le_of_not_lt hl)] at hc
        cases hc
      simp only [markAux, hc, getAt, GoNode.children]
      rw [List.getElem?_set_self hlen]
      exact getAt_markAux_self rest c tgt s h

theorem deletedAt_markAux_ne :
    ∀ (p q : List Nat) (t : GoNode) (s : Int), q ≠ p →
      deletedAt (markAux t p s) q = deletedAt t q
  | [], [], _, _, hne => absurd rfl hne
  | [], j :: q0, .mk pa na sz d del ds cs, s, _ => by
    simp [markAux, deletedAt, getAt, GoNode.children]
  | i :: rest, [], .mk pa na sz d del ds cs, s, _ => by
    cases h : cs[i]? with
    | none => simp [markAux, h, deletedAt, getAt, GoNode.isDeleted]
    | some c => simp [markAux, h, deletedAt, getAt, GoNode.isDeleted]
  | i :: rest, j :: q0, .mk pa na sz d del ds cs, s, hne => by
    cases h : cs[i]? with
    | none => simp [markAux, h, deletedAt, getAt, GoNode.children]
    | some c =>
      simp only [markAux, h, deletedAt, getAt, GoNode.children]
      by_cases hij : j = i
      · subst hij
        have hq0 : q0 ≠ rest := fun hh => hne (by rw [hh])
        have hlen : j < cs.length := by
          by_contra hl
          rw [List.getElem?_eq_none (Nat.le_of_not_lt hl)] at h
          cases h
        rw [List.getElem?_set_self hlen, h]
        exact deletedAt_markAux_ne rest q0 c s hq0
      · rw [List.getElem?_set_ne (fun hh => hij hh.symm)]

theorem deletedSizeAt_markAux_outside :
    ∀ (p q : List Nat) (t : GoNode) (s : Int), pathLe q p = false →
      deletedSizeAt (markAux t p s) q = deletedSizeAt t q
  | [], [], _, _, hq => by simp [pathLe] at hq
  | [], j :: q0, .mk pa na sz d del ds cs, s, _ => by
    simp [markAux, deletedSizeAt, getAt, GoNode.children]
  | i :: rest, [], _, _, hq => by simp [pathLe] at hq
  | i :: rest, j :: q0, .mk pa na sz d del ds cs, s, hq => by
    cases h : cs[i]? with
    | none => simp [markAux, h, deletedSizeAt, getAt, GoNode.children]
    | some c =>
      simp only [markAux, h, deletedSizeAt, getAt, GoNode.children]
      by_cases hij : j = i
      · subst hij
        have hq0 : pathLe q0 rest = false := by
          simpa [pathLe] using hq
        have hlen : j < cs.length := by
          by_contra hl
          rw [List.getElem?_eq_none (Nat.le_of_not_lt hl)] at h
          cases h
        rw [List.getElem?_set_self hlen, h]
        exact deletedSizeAt_markAux_outside rest q0 c s hq0
      · rw [List.getElem?_set_ne (fun hh => hij hh.symm)]

theorem deletedSizeAt_markAux_ancestor :
    ∀ (p q : List Nat) (t tgt : GoNode) (s : Int), getAt t p = some tgt →
      pathLe q p = true → q ≠ p →
      deletedSizeAt (markAux t p s) q = (deletedSizeAt t q).map (· + s)
  | [], [], _, _, _, _, _, hne => absurd rfl hne
  | [], j :: q0, _, _, _, _, hq, _ => by simp [pathLe] at hq
  | i :: rest, [], .mk pa na sz d del ds cs, tgt, s, hv, _, _ => by
    simp only [getAt, GoNode.children] at hv
    cases h : cs[i]? with
    | none => rw [h] at hv; cases hv
    | some c => simp [markAux, h, deletedSizeAt, getAt, GoNode.deletedSize]
  | i :: rest, j :: q0, .mk pa na sz d del ds cs, tgt, s, hv, hq, hne => by
    have hij : j = i := by
      by_contra hji
      simp [pathLe, hji] at hq
    subst hij
    cases h : cs[j]? with
    | none => simp [getAt, GoNode.children, h] at hv
    | some c =>
      simp only [getAt, GoNode.children, h] at hv
      have hq0 : pathLe q0 rest = true := by simpa [pathLe] using hq
      have hq0ne : q0 ≠ rest := fun hh => hne (by rw [hh])
      have hlen : j < cs.length := by
        by_contra hl
        rw [List.getElem?_eq_none (Nat.le_of_not_lt hl)] at h
        cases h
      simp only [markAux, h, deletedSizeAt, getAt, GoNode.children,
        List.getElem?_set_self hlen]
      simpa [deletedSizeAt, getAt] using
        deletedSizeAt_markAux_ancestor rest q0 c tgt s hv hq0 hq0ne

theorem markDeletedAt_of_none {t : GoNode} {p : List Nat}
    (h : getAt t p = none) : markDeletedAt t p = t := by
  simp [markDeletedAt, h]

theorem markDeletedAt_of_deleted {t tgt : GoNode} {p : List Nat}
    (h : getAt t p = some tgt) (hd : tgt.isDeleted = true) :
    markDeletedAt t p = t := by
  simp [markDeletedAt, h, hd]

theorem markDeletedAt_of_live {t tgt : GoNode} {p : List Nat}
    (h : getAt t p = some tgt) (hd : tgt.isDeleted = false) :
    markDeletedAt t p = markAux t p tgt.size := by
  simp [markDeletedAt, h, hd]

theorem stripDel_markDeletedAt (t : GoNode) (p : List Nat) :
    stripDel (markDeletedAt t p) = stripDel t := by
  cases h : getAt t p with
  | none => rw [markDeletedAt_of_none h]
  | some tgt =>
    cases hd : tgt.isDeleted with
    | true => rw [markDeletedAt_of_deleted h hd]
    | false => rw [markDeletedAt_of_live h hd, stripDel_markAux]

theorem deletedAt_markDeletedAt_ne {t : GoNode} {p q : List Nat}
    (hne : q ≠ p) : deletedAt (markDeletedAt t p) q = deletedAt t q := by
  cases h : getAt t p with
  | none => rw [markDeletedAt_of_none h]
  | some tgt =>
    cases hd : tgt.isDeleted with
    | true => rw [markDeletedAt_of_deleted h hd]
    | false => rw [markDeletedAt_of_live h hd, deletedAt_markAux_ne p q t tgt.size hne]

theorem deletedAt_markDeletedAt_self {t tgt : GoNode} {p : List Nat}
    (h : getAt t p = some tgt) :
    deletedAt (markDeletedAt t p) p = some true := by
  cases hd : tgt.isDeleted with
  | true =>
    rw [markDeletedAt_of_deleted h hd]
    simp [deletedAt, h, hd]
  | false =>
    rw [markDeletedAt_of_live h hd]
    rw [deletedAt, getAt_markAux_self p t tgt tgt.size h]
    simp [GoNode.isDeleted]

theorem getAt_none_congr_strip {t₁ t₂ : GoNode}
    (h : stripDel t₁ = stripDel t₂) (q : List Nat) :
    (getAt t₁ q = none) = (getAt t₂ q = none) := by
  have h1 := getAt_stripDel q t₁
  have h2 := getAt_stripDel q t₂
  rw [h] at h1
  rw [h2] at h1
  cases e1 : getAt t₁ q <;> cases e2 : getAt t₂ q <;>
    rw [e1, e2] at h1 <;> simp_all

theorem sizeAt_congr_strip {t₁ t₂ : GoNode}
    (h : stripDel t₁ = stripDel t₂) (q : List Nat) :
    sizeAt t₁ q = sizeAt t₂ q := by
  have h1 := getAt_stripDel q t₁
  have h2 := getAt_stripDel q t₂
  rw [h, h2] at h1
  have hm : ∀ t : GoNode, ∀ o : Option GoNode,
      (o.map stripDel).map GoNode.size = o.map GoNode.size := by
    intro _ o
    cases o with
    | none => rfl
    | some n => simp [stripDel_size]
  calc sizeAt t₁ q = (getAt t₁ q).map GoNode.size := rfl
    _ = ((getAt t₁ q).map stripDel).map GoNode.size := by
        cases getAt t₁ q <;> simp [stripDel_size]
    _ = ((getAt t₂ q).map stripDel).map GoNode.size := by rw [h1]
    _ = (getAt t₂ q).map GoNode.size := by
        cases getAt t₂ q <;> simp [stripDel_size]

mutual
theorem locate_stripDel :
    ∀ (t : GoNode) (path : List String),
      locateByPath (stripDel t) path = locateByPath t path
  | .mk pa na sz d del ds cs, path => by
    by_cases h : pa = path
    · simp [stripDel, locateByPath, h]
    · simp [stripDel, locateByPath, h, locateList_stripDel cs path 0]

theorem locateList_stripDel :
    ∀ (cs : List GoNode) (path : List String) (i : Nat),
      locateList (stripDelList cs) path i = locateList cs path i
  | [], _, _ => rfl
  | c :: cs, path, i => by
    simp only [stripDelList, locateList, locate_stripDel c path]
    cases locateByPath c path with
    | none => simp [locateList_stripDel cs path (i + 1)]
    | some q => simp
end

theorem locate_congr_strip {t₁ t₂ : GoNode}
    (h : stripDel t₁ = stripDel t₂) (path : List String) :
    locateByPath t₁ path = locateByPath t₂ path := by
  rw [← locate_stripDel t₁ path, ← locate_stripDel t₂ path, h]

theorem isDeleted_mk (pa : List String) (na : String) (sz : Int) (d : Bool)
    (del : Bool) (ds : Int) (cs : List GoNode) :
    (GoNode.mk pa na sz d del ds cs).isDeleted = del := rfl

theorem markDeletedAt_idem (t : GoNode) (p : List Nat) :
    markDeletedAt (markDeletedAt t p) p = markDeletedAt t p := by
  cases h : getAt t p with
  | none =>
    rw [markDeletedAt_of_none h, markDeletedAt_of_none h]
  | some tgt =>
    cases hd : tgt.isDeleted with
    | true => rw [markDeletedAt_of_deleted h hd, markDeletedAt_of_deleted h hd]
    | false =>
      rw [markDeletedAt_of_live h hd]
      have h2 := getAt_markAux_self p t tgt tgt.size h
      exact markDeletedAt_of_deleted h2 rfl

/-- Whether the node the controller would find for `path` is already flagged
deleted (vacuously so when the path is not in the tree). -/
def flagged (s : DelState) (path : List String) : Prop :=
  match locateByPath s.tree path with
  | none => True
  | some ip => deletedAt s.tree ip = some true

theorem getAt_of_deletedAt {t : GoNode} {q : List Nat} {b : Bool}
    (h : deletedAt t q = some b) : ∃ n, getAt t q = some n ∧ n.isDeleted = b := by
  unfold deletedAt at h
  cases e : getAt t q with
  | none => rw [e] at h; cases h
  | some n =>
    rw [e] at h
    exact ⟨n, rfl, by simpa using h⟩

theorem deletedAt_markDeletedAt_mono {t : GoNode} {p q : List Nat}
    (h : deletedAt t q = some true) :
    deletedAt (markDeletedAt t p) q = some true := by
  by_cases hq : q = p
  · subst hq
    obtain ⟨n, hn, _⟩ := getAt_of_deletedAt h
    exact deletedAt_markDeletedAt_self hn
  · rw [deletedAt_markDeletedAt_ne hq, h]

theorem handleDeletion_effective {s : DelState} {path : List String}
    {ip : List Nat} {node : GoNode}
    (hl : locateByPath s.tree path = some ip)
    (hg : getAt s.tree ip = some node) (hd : node.isDeleted = false) :
    handleDeletion s path =
      (⟨markDeletedAt s.tree ip, s.session + node.size,
        s.lifetime + node.size⟩,
       some ⟨path, node.size, s.session + node.size,
         s.lifetime + node.size⟩) := by
  simp [handleDeletion, hl, hg, hd, GoNode.totalSize]

theorem handleDeletion_noop {s : DelState} {path : List String}
    (h : flagged s path) : handleDeletion s path = (s, none) := by
  unfold flagged at h
  cases hl : locateByPath s.tree path with
  | none => simp [handleDeletion, hl]
  | some ip =>
    rw [hl] at h
    obtain ⟨n, hn, hnd⟩ := getAt_of_deletedAt h
    simp [handleDeletion, hl, hn, hnd]

theorem flagged_handleDeletion {s : DelState} {path p : List String}
    (h : flagged s path) : flagged (handleDeletion s p).1 path := by
  cases hl : locateByPath s.tree p with
  | none => simpa [handleDeletion, hl] using h
  | some ip =>
    cases hg : getAt s.tree ip with
    | none => simpa [handleDeletion, hl, hg] using h
    | some node =>
      cases hd : node.isDeleted with
      | true => simpa [handleDeletion, hl, hg, hd] using h
      | false =>
        rw [handleDeletion_effective hl hg hd]
        unfold flagged at h ⊢
        have hstrip := stripDel_markDeletedAt s.tree ip
        rw [locate_congr_strip hstrip path]
        cases hloc : locateByPath s.tree path with
        | none => trivial
        | some q =>
          rw [hloc] at h
          exact deletedAt_markDeletedAt_mono h

theorem flagged_after_event {s s' : DelState} {path : List String}
    {ev : DelEvent} (h : handleDeletion s path = (s', some ev)) :
    flagged s' path := by
  cases hl : locateByPath s.tree path with
  | none => simp [handleDeletion, hl] at h
  | some ip =>
    cases hg : getAt s.tree ip with
    | none => simp [handleDeletion, hl, hg] at h
    | some node =>
      cases hd : node.isDeleted with
      | true => simp [handleDeletion, hl, hg, hd] at h
      | false =>
        rw [handleDeletion_effective hl hg hd, Prod.mk.injEq] at h
        obtain ⟨hs, -⟩ := h
        subst hs
        unfold flagged
        have hstrip := stripDel_markDeletedAt s.tree ip
        rw [show (⟨markDeletedAt s.tree ip, s.session + node.size,
            s.lifetime + node.size⟩ : DelState).tree = markDeletedAt s.tree ip
          from rfl]
        rw [locate_congr_strip hstrip path, hl]
        exact deletedAt_markDeletedAt_self hg

theorem handleDeletion_path_eq {s : DelState} {p : List String} :
    ∀ ev ∈ (handleDeletion s p).2, ev.path = p := by
  intro ev hev
  cases hl : locateByPath s.tree p with
  | none => simp [handleDeletion, hl] at hev
  | some ip =>
    cases hg : getAt s.tree ip with
    | none => simp [handleDeletion, hl, hg] at hev
    | some node =>
      cases hd : node.isDeleted with
      | true => simp [handleDeletion, hl, hg, hd] at hev
      | false =>
        rw [handleDeletion_effective hl hg hd] at hev
        simp at hev
        rw [← hev]

theorem runDeletions_count_zero_of_flagged
    (p : List String) :
    ∀ (ps : List (List String)) (s : DelState), flagged s p →
      ((runDeletions s ps).2.countP (fun e => decide (e.path = p))) = 0
  | [], _, _ => rfl
  | q :: ps, s, h => by
    simp only [runDeletions]
    rw [List.countP_append]
    have hrest := runDeletions_count_zero_of_flagged p ps (handleDeletion s q).1
      (flagged_handleDeletion h)
    rw [hrest]
    by_cases hqp : q = p
    · subst hqp
      rw [handleDeletion_noop h]
      rfl
    · cases hev : (handleDeletion s q).2 with
      | none => simp [hev]
      | some ev =>
        have hpe : ev.path = q :=
          @handleDeletion_path_eq s q ev (Option.mem_def.mpr hev)
        simp [hev, List.countP_cons, hpe, hqp]

theorem runDeletions_at_most_once (p : List String) :
    ∀ (ps : List (List String)) (s : DelState),
      ((runDeletions s ps).2.countP (fun e => decide (e.path = p))) ≤ 1
  | [], _ => by simp [runDeletions]
  | q :: ps, s => by
    simp only [runDeletions]
    rw [List.countP_append]
    cases hev : (handleDeletion s q).2 with
    | none =>
      simp only [hev, Option.toList_none, List.countP_nil, Nat.zero_add]
      exact runDeletions_at_most_once p ps (handleDeletion s q).1
    | some ev =>
      have hpe : ev.path = q :=
        @handleDeletion_path_eq s q ev (Option.mem_def.mpr hev)
      by_cases hqp : q = p
      · subst hqp
        have hfl : flagged (handleDeletion s q).1 q := by
          have hpair : handleDeletion s q = ((handleDeletion s q).1, some ev) := by
            rw [← hev]
          exact flagged_after_event hpair
        rw [runDeletions_count_zero_of_flagged q ps (handleDeletion s q).1 hfl]
        simp [hev, List.countP_cons, hpe]
      · have hrest := runDeletions_at_most_once p ps (handleDeletion s q).1
        have hhead :
            (Option.toList (some ev)).countP (fun e => decide (e.path = p)) = 0 := by
          simp [List.countP_cons, hpe, hqp]
        rw [hhead, Nat.zero_add]
        exact hrest

/-! ## Accounting for sequences of deletions (spec invariant I4) -/

/-- A whole watch session's worth of `MarkDeleted` calls, in order. -/
def runMarks (t : GoNode) (ops : List (List Nat)) : GoNode :=
  ops.foldl markDeletedAt t

/-- The positions whose `MarkDeleted` call actually fired, in firing order:
a call is effective when its target exists and was not already marked, so the
effective list gains `p` exactly when `p` is a live position not seen
before. -/
def effStep (t0 : GoNode) (marked : List (List Nat)) (p : List Nat) :
    List (List Nat) :=
  if (getAt t0 p).isSome ∧ p ∉ marked then marked ++ [p] else marked

/-- The effective marks of a whole operation sequence. -/
def effList (t0 : GoNode) (ops : List (List Nat)) : List (List Nat) :=
  ops.foldl (effStep t0) []

/-- `Size` at `p`, defaulting to 0 off the tree. -/
def sizeAtD (t : GoNode) (p : List Nat) : Int := (sizeAt t p).getD 0

/-- The size-at-deletion-time ledger: the sum of the (static) sizes of the
marked positions lying in the subtree of `q`. -/
def marksSum (t0 : GoNode) (marked : List (List Nat)) (q : List Nat) : Int :=
  ((marked.filter (fun p => pathLe q p)).map (sizeAtD t0)).sum

/-- The state description maintained across a deletion sequence: the
structural fields still those of `t0`, a node flagged iff its position was
effectively marked, and every `DeletedSize` equal to the ledger sum. -/
def MarkInv (t0 : GoNode) (marked : List (List Nat)) (t : GoNode) : Prop :=
  stripDel t = stripDel t0 ∧
  (∀ q, deletedAt t q = (getAt t0 q).map (fun _ => decide (q ∈ marked))) ∧
  (∀ q n, getAt t0 q = some n → deletedSizeAt t q = some (marksSum t0 marked q))

theorem deletedSizeAt_markAux_self {t tgt : GoNode} {p : List Nat} {s : Int}
    (h : getAt t p = some tgt) :
    deletedSizeAt (markAux t p s) p = some s := by
  rw [deletedSizeAt, getAt_markAux_self p t tgt s h]
  rfl

theorem unmarkedList_get :
    ∀ (cs : List GoNode) (i : Nat) (c : GoNode), unmarkedList cs = true →
      cs[i]? = some c → unmarked c = true
  | [], i, c, _, hg => by simp at hg
  | x :: cs, 0, c, hu, hg => by
    simp at hg
    subst hg
    simp [unmarkedList] at hu
    exact hu.1
  | x :: cs, i + 1, c, hu, hg => by
    simp at hg
    simp [unmarkedList] at hu
    exact unmarkedList_get cs i c hu.2 hg

theorem unmarked_fields {pa : List String} {na : String} {sz : Int}
    {d del : Bool} {ds : Int} {cs : List GoNode}
    (hu : unmarked (.mk pa na sz d del ds cs) = true) :
    del = false ∧ ds = 0 ∧ unmarkedList cs = true := by
  have hu' : (!del && (ds == 0) && unmarkedList cs) = true := hu
  simp only [Bool.and_eq_true, Bool.not_eq_true', beq_iff_eq] at hu'
  exact ⟨hu'.1.1, hu'.1.2, hu'.2⟩

theorem unmarked_getAt :
    ∀ (q : List Nat) (t n : GoNode), unmarked t = true → getAt t q = some n →
      n.isDeleted = false ∧ n.deletedSize = 0
  | [], .mk pa na sz d del ds cs, n, hu, hg => by
    simp only [getAt, Option.some.injEq] at hg
    obtain ⟨h1, h2, -⟩ := unmarked_fields hu
    subst hg
    exact ⟨by simp [GoNode.isDeleted, h1], by simp [GoNode.deletedSize, h2]⟩
  | i :: rest, .mk pa na sz d del ds cs, n, hu, hg => by
    simp only [getAt, GoNode.children] at hg
    cases hc : cs[i]? with
    | none => rw [hc] at hg; cases hg
    | some c =>
      rw [hc] at hg
      obtain ⟨-, -, h3⟩ := unmarked_fields hu
      exact unmarked_getAt rest c n (unmarkedList_get cs i c h3 hc) hg

theorem markInv_base {t0 : GoNode} (hu : unmarked t0 = true) :
    MarkInv t0 [] t0 := by
  refine ⟨rfl, ?_, ?_⟩
  · intro q
    cases hg : getAt t0 q with
    | none => simp [deletedAt, hg]
    | some n =>
      have := (unmarked_getAt q t0 n hu hg).1
      simp [deletedAt, hg, this]
  · intro q n hg
    have := (unmarked_getAt q t0 n hu hg).2
    simp [deletedSizeAt, hg, this, marksSum]

theorem markInv_step {t0 t : GoNode} {marked : List (List Nat)} {p : List Nat}
    (hInv : MarkInv t0 marked t)
    (hOrd : ∀ m ∈ marked, pathLe p m = true → p = m) :
    MarkInv t0 (effStep t0 marked p) (markDeletedAt t p) := by
  obtain ⟨hstrip, hdel, hds⟩ := hInv
  cases hg0 : getAt t0 p with
  | none =>
    have hgt : getAt t p = none := by
      rw [getAt_none_congr_strip hstrip p]
      exact hg0
    rw [markDeletedAt_of_none hgt]
    have heff : effStep t0 marked p = marked := by simp [effStep, hg0]
    rw [heff]
    exact ⟨hstrip, hdel, hds⟩
  | some n0 =>
    by_cases hmem : p ∈ marked
    · have hflag : deletedAt t p = some true := by
        rw [hdel p, hg0]
        simp [hmem]
      obtain ⟨tgt, hgt, htgtd⟩ := getAt_of_deletedAt hflag
      rw [markDeletedAt_of_deleted hgt htgtd]
      have heff : effStep t0 marked p = marked := by simp [effStep, hmem]
      rw [heff]
      exact ⟨hstrip, hdel, hds⟩
    · have hflag : deletedAt t p = some false := by
        rw [hdel p, hg0]
        simp [hmem]
      obtain ⟨tgt, hgt, htgtd⟩ := getAt_of_deletedAt hflag
      have hsz : tgt.size = n0.size := by
        have hc := sizeAt_congr_strip hstrip p
        rw [sizeAt, sizeAt, hgt, hg0] at hc
        simpa using hc
      rw [markDeletedAt_of_live hgt htgtd]
      have heff : effStep t0 marked p = marked ++ [p] := by
        simp [effStep, hg0, hmem]
      rw [heff]
      refine ⟨?_, ?_, ?_⟩
      · rw [stripDel_markAux]
        exact hstrip
      · intro q
        by_cases hq : q = p
        · subst hq
          rw [deletedAt, getAt_markAux_self q t tgt tgt.size hgt, hg0]
          simp [GoNode.isDeleted]
        · rw [deletedAt_markAux_ne p q t tgt.size hq, hdel q]
          cases getAt t0 q with
          | none => rfl
          | some _ => simp [hq]
      · intro q n hq
        by_cases hqp : q = p
        · subst hqp
          rw [deletedSizeAt_markAux_self hgt]
          congr 1
          rw [marksSum, List.filter_append]
          have hmk : marked.filter (fun m => pathLe q m) = [] := by
            rw [List.filter_eq_nil_iff]
            intro m hm hpm
            have := hOrd m hm (by simpa using hpm)
            rw [this] at hmem
            exact hmem hm
          rw [hmk]
          simp [pathLe_refl, sizeAtD, sizeAt, hg0, hsz]
        · by_cases hle : pathLe q p = true
          · rw [deletedSizeAt_markAux_ancestor p q t tgt tgt.size hgt hle hqp,
              hds q n hq]
            simp only [Option.map_some']
            congr 1
            rw [marksSum, marksSum, List.filter_append]
            simp [hle, sizeAtD, sizeAt, hg0, hsz]
          · have hle' : pathLe q p = false := by simpa using hle
            rw [deletedSizeAt_markAux_outside p q t tgt.size hle', hds q n hq]
            have hmm : marksSum t0 (marked ++ [p]) q = marksSum t0 marked q := by
              rw [marksSum, marksSum, List.filter_append]
              simp [hle']
            rw [hmm]

theorem markInv_run {t0 : GoNode} :
    ∀ (ops marked : List (List Nat)) (t : GoNode),
      MarkInv t0 marked t →
      (∀ p ∈ ops, ∀ m ∈ marked, pathLe p m = true → p = m) →
      List.Pairwise (fun a b => pathLe b a = true → b = a) ops →
      MarkInv t0 (ops.foldl (effStep t0) marked) (ops.foldl markDeletedAt t)
  | [], _, _, hInv, _, _ => hInv
  | p :: ops, marked, t, hInv, hcross, hpw => by
    simp only [List.foldl_cons]
    rcases List.pairwise_cons.mp hpw with ⟨hhead, htail⟩
    apply markInv_run ops (effStep t0 marked p) (markDeletedAt t p)
    · exact markInv_step hInv (hcross p (List.mem_cons_self p ops))
    · intro pp hpp m hm hpm
      by_cases hcond : (getAt t0 p).isSome ∧ p ∉ marked
      · rw [effStep, if_pos hcond] at hm
        rcases List.mem_append.mp hm with hm1 | hm2
        · exact hcross pp (List.mem_cons_of_mem p hpp) m hm1 hpm
        · have hmp : m = p := by simpa using hm2
          subst hmp
          exact hhead pp hpp hpm
      · rw [effStep, if_neg hcond] at hm
        exact hcross pp (List.mem_cons_of_mem p hpp) m hm hpm
    · exact htail

/-- The I4 ledger theorem for ancestor-before-descendant sequences: starting
from a freshly scanned tree and never marking a node after one of its strict
descendants, every `DeletedSize` equals the sum of the sizes of the
effectively marked positions in its subtree. -/
theorem runMarks_deletedSize {t0 : GoNode} {ops : List (List Nat)}
    (hu : unmarked t0 = true)
    (hord : List.Pairwise (fun a b => pathLe b a = true → b = a) ops) :
    ∀ q n, getAt t0 q = some n →
      deletedSizeAt (runMarks t0 ops) q =
        some (marksSum t0 (effList t0 ops) q) := by
  have h := markInv_run ops [] t0 (markInv_base hu)
    (by intro p _ m hm _; cases hm) hord
  exact h.2.2

theorem getAt_addChildAt_self :
    ∀ (p : List Nat) (t tgt c : GoNode) (b : Bool), getAt t p = some tgt →
      getAt (addChildAt t p c b) p =
        some (.mk tgt.path tgt.name (tgt.size + c.totalSize) tgt.isDir
          tgt.isDeleted tgt.deletedSize (tgt.children ++ [c]))
  | [], .mk pa na sz d del ds cs, tgt, c, b, h => by
    simp only [getAt, Option.some.injEq] at h
    subst h
    rfl
  | i :: rest, .mk pa na sz d del ds cs, tgt, c, b, h => by
    simp only [getAt, GoNode.children] at h
    cases hc : cs[i]? with
    | none => rw [hc] at h; cases h
    | some c0 =>
      rw [hc] at h
      have hlen : i < cs.length := by
        by_contra hl
        rw [List.getElem?_eq_none (Nat.le_of_not_lt hl)] at hc
        cases hc
      simp only [addChildAt, hc, getAt, GoNode.children,
        List.getElem?_set_self hlen]
      exact getAt_addChildAt_self rest c0 tgt c b h

theorem sizeAt_addChildAt_ancestor :
    ∀ (p q : List Nat) (t tgt c : GoNode) (b : Bool), getAt t p = some tgt →
      pathLe q p = true → q ≠ p →
      sizeAt (addChildAt t p c b) q = (sizeAt t q).map (· + c.totalSize)
  | [], [], _, _, _, _, _, _, hne => absurd rfl hne
  | [], j :: q0, _, _, _, _, _, hq, _ => by simp [pathLe] at hq
  | i :: rest, [], .mk pa na sz d del ds cs, tgt, c, b, hv, _, _ => by
    simp only [getAt, GoNode.children] at hv
    cases hc : cs[i]? with
    | none => rw [hc] at hv; cases hv
    | some c0 => simp [addChildAt, hc, sizeAt, getAt, GoNode.size]
  | i :: rest, j :: q0, .mk pa na sz d del ds cs, tgt, c, b, hv, hq, hne => by
    have hij : j = i := by
      by_contra hji
      simp [pathLe, hji] at hq
    subst hij
    cases hc : cs[j]? with
    | none => simp [getAt, GoNode.children, hc] at hv
    | some c0 =>
      simp only [getAt, GoNode.children, hc] at hv
      have hq0 : pathLe q0 rest = true := by simpa [pathLe] using hq
      have hq0ne : q0 ≠ rest := fun hh => hne (by rw [hh])
      have hlen : j < cs.length := by
        by_contra hl
        rw [List.getElem?_eq_none (Nat.le_of_not_lt hl)] at hc
        cases hc
      simp only [addChildAt, hc, sizeAt, getAt, GoNode.children,
        List.getElem?_set_self hlen]
      simpa [sizeAt, getAt] using
        sizeAt_addChildAt_ancestor rest q0 c0 tgt c b hv hq0 hq0ne

theorem getAt_addChildAt_outside :
    ∀ (p q : List Nat) (t c : GoNode) (b : Bool),
      pathLe q p = false → pathLe p q = false →
      getAt (addChildAt t p c b) q = getAt t q
  | [], q, _, _, _, _, hpq => by simp [pathLe_nil_left] at hpq
  | i :: rest, [], _, _, _, hq, _ => by simp [pathLe] at hq
  | i :: rest, j :: q0, .mk pa na sz d del ds cs, c, b, hq, hpq => by
    cases hc : cs[i]? with
    | none => simp [addChildAt, hc]
    | some c0 =>
      simp only [addChildAt, hc, getAt, GoNode.children]
      by_cases hij : j = i
      · subst hij
        have hq0 : pathLe q0 rest = false := by simpa [pathLe] using hq
        have hpq0 : pathLe rest q0 = false := by simpa [pathLe] using hpq
        have hlen : j < cs.length := by
          by_contra hl
          rw [List.getElem?_eq_none (Nat.le_of_not_lt hl)] at hc
          cases hc
        rw [List.getElem?_set_self hlen, hc]
        exact getAt_addChildAt_outside rest q0 c0 c b hq0 hpq0
      · rw [List.getElem?_set_ne (fun hh => hij hh.symm)]

theorem addChildAt_flag_blind :
    ∀ (p : List Nat) (t c : GoNode),
      addChildAt t p c true = addChildAt t p c false
  | [], .mk pa na sz d del ds cs, c => rfl
  | i :: rest, .mk pa na sz d del ds cs, c => by
    cases hc : cs[i]? with
    | none => simp [addChildAt, hc]
    | some c0 => simp [addChildAt, hc, addChildAt_flag_blind rest c0 c]

theorem computeSizes_snd :
    ∀ n : GoNode, (computeSizes n).2 = (computeSizes n).1.size
  | .mk pa na sz d del ds cs => by
    cases d with
    | true => simp [computeSizes, GoNode.size]
    | false => simp [computeSizes, GoNode.size]

theorem computeSizesList_snd :
    ∀ cs : List GoNode,
      (computeSizesList cs).2 = ((computeSizesList cs).1.map GoNode.size).sum
  | [] => rfl
  | c :: cs => by
    simp only [computeSizesList, List.map_cons, List.sum_cons]
    rw [computeSizes_snd c, computeSizesList_snd cs]

theorem computeSizesList_get :
    ∀ (cs : List GoNode) (i : Nat),
      (computeSizesList cs).1[i]? = (cs[i]?).map (fun c => (computeSizes c).1)
  | [], i => by simp [computeSizesList]
  | c :: cs, 0 => by simp [computeSizesList]
  | c :: cs, i + 1 => by
    simp only [computeSizesList, List.getElem?_cons_succ]
    exact computeSizesList_get cs i

theorem wfList_get :
    ∀ (cs : List GoNode) (i : Nat) (c : GoNode), wfList cs = true →
      cs[i]? = some c → wfNode c = true
  | [], i, c, _, hg => by simp at hg
  | x :: cs, 0, c, hw, hg => by
    have hw' : (wfNode x && wfList cs) = true := hw
    simp only [Bool.and_eq_true] at hw'
    have hx : x = c := by simpa using hg
    subst hx
    exact hw'.1
  | x :: cs, i + 1, c, hw, hg => by
    simp at hg
    have hw' : (wfNode x && wfList cs) = true := hw
    simp only [Bool.and_eq_true] at hw'
    exact wfList_get cs i c hw'.2 hg

theorem wf_fields {pa : List String} {na : String} {sz : Int}
    {d del : Bool} {ds : Int} {cs : List GoNode}
    (hw : wfNode (.mk pa na sz d del ds cs) = true) :
    (d = true ∨ cs = []) ∧ wfList cs = true := by
  have hw' : ((d || cs.isEmpty) && wfList cs) = true := hw
  simp only [Bool.and_eq_true, Bool.or_eq_true] at hw'
  obtain ⟨h1, h2⟩ := hw'
  rcases h1 with h | h
  · exact ⟨Or.inl h, h2⟩
  · exact ⟨Or.inr (by simpa [List.isEmpty_iff] using h), h2⟩

theorem getAt_computeSizes :
    ∀ (q : List Nat) (t : GoNode), wfNode t = true →
      getAt (computeSizes t).1 q = (getAt t q).map (fun s => (computeSizes s).1)
  | [], t, _ => by simp [getAt]
  | i :: rest, .mk pa na sz d del ds cs, hw => by
    obtain ⟨hd, hwl⟩ := wf_fields hw
    cases d with
    | true =>
      have hck : (computeSizes (GoNode.mk pa na sz true del ds cs)).1 =
          .mk pa na (computeSizesList cs).2 true del ds (computeSizesList cs).1 := by
        simp [computeSizes]
      rw [hck]
      simp only [getAt, GoNode.children, computeSizesList_get]
      cases hc : cs[i]? with
      | none => simp
      | some c =>
        simp only [Option.map_some']
        exact getAt_computeSizes rest c (wfList_get cs i c hwl hc)
    | false =>
      have hcs : cs = [] := by
        rcases hd with h | h
        · cases h
        · exact h
      subst hcs
      simp [computeSizes, getAt, GoNode.children]

theorem goInsertBySize_perm :
    ∀ (x : GoNode) (l : List GoNode), (goInsertBySize x l).Perm (x :: l)
  | _, [] => List.Perm.refl _
  | x, y :: ys => by
    simp only [goInsertBySize]
    by_cases h : y.totalSize > x.totalSize
    · rw [if_pos h]
      exact ((goInsertBySize_perm x ys).cons y).trans (List.Perm.swap x y ys)
    · rw [if_neg h]

theorem sortBySize_perm : ∀ l : List GoNode, (sortBySize l).Perm l
  | [] => List.Perm.refl _
  | x :: xs =>
    (goInsertBySize_perm x (sortBySize xs)).trans ((sortBySize_perm xs).cons x)

theorem goInsertBySize_sorted :
    ∀ (x : GoNode) (l : List GoNode),
      l.Pairwise (fun a b => b.totalSize ≤ a.totalSize) →
      (goInsertBySize x l).Pairwise (fun a b => b.totalSize ≤ a.totalSize)
  | x, [], _ => List.pairwise_singleton _ x
  | x, y :: ys, h => by
    rcases List.pairwise_cons.mp h with ⟨hy, hys⟩
    simp only [goInsertBySize]
    by_cases hxy : y.totalSize > x.totalSize
    · rw [if_pos hxy]
      refine List.pairwise_cons.mpr ⟨?_, goInsertBySize_sorted x ys hys⟩
      intro z hz
      rcases (goInsertBySize_perm x ys).mem_iff.mp hz with hz1
      rcases List.mem_cons.mp hz1 with hz2 | hz2
      · subst hz2
        exact Int.le_of_lt hxy
      · exact hy z hz2
    · rw [if_neg hxy]
      refine List.pairwise_cons.mpr ⟨?_, h⟩
      intro z hz
      have hyx : y.totalSize ≤ x.totalSize := Int.not_lt.mp hxy
      rcases List.mem_cons.mp hz with hz1 | hz1
      · subst hz1
        exact hyx
      · exact Int.le_trans (hy z hz1) hyx

theorem sortBySize_sorted :
    ∀ l : List GoNode,
      (sortBySize l).Pairwise (fun a b => b.totalSize ≤ a.totalSize)
  | [] => List.Pairwise.nil
  | x :: xs => goInsertBySize_sorted x (sortBySize xs) (sortBySize_sorted xs)

theorem qFloor_eq_floor (q : ℚ) : qFloor q = ⌊q⌋ := Rat.floor_def.symm

theorem qFloor_intCast (n : Int) : qFloor (n : ℚ) = n := by
  rw [qFloor_eq_floor, Int.floor_intCast]

theorem qFloor_mono {p q : ℚ} (h : p ≤ q) : qFloor p ≤ qFloor q := by
  rw [qFloor_eq_floor, qFloor_eq_floor]
  exact Int.floor_le_floor h

theorem qFloor_nonneg {q : ℚ} (h : 0 ≤ q) : 0 ≤ qFloor q := by
  have := qFloor_mono h
  rwa [show qFloor 0 = 0 from rfl] at this

theorem qFloor_le_int {q : ℚ} {n : Int} (h : q ≤ (n : ℚ)) : qFloor q ≤ n := by
  have := qFloor_mono h
  rwa [qFloor_intCast] at this

theorem goRound_ge_qFloor {q : ℚ} (h : 0 ≤ q) : qFloor q ≤ goRound q := by
  rw [goRound, if_pos h]
  exact qFloor_mono (by linarith)

theorem goRound_le_int {q : ℚ} {n : Int} (h0 : 0 ≤ q) (h : q ≤ (n : ℚ)) :
    goRound q ≤ n := by
  rw [goRound, if_pos h0]
  have h2 : q + 1 / 2 ≤ (n : ℚ) + 1 / 2 := by linarith
  have h3 : qFloor (q + 1 / 2) ≤ qFloor ((n : ℚ) + 1 / 2) := qFloor_mono h2
  have h4 : qFloor ((n : ℚ) + 1 / 2) = n := by
    rw [qFloor_eq_floor]
    rw [show ((n : ℚ) + 1 / 2) = (1 : ℚ) / 2 + n by ring]
    rw [Int.floor_add_int]
    norm_num
  rwa [h4] at h3

theorem layoutTry_spec {sq : SqFn} {items : List ℚ} {W H : Int} {mv : Nat}
    {cfg : LoopCfg} (h : layoutTry sq items W H mv = some cfg) :
    allFitB cfg.blocks = true ∧
    cfg.numVisible ≤ items.length ∧
    cfg.grouped = decide (2 ≤ items.length - cfg.numVisible) ∧
    ∃ hG : Bool,
      cfg.blocks = sq (items.take cfg.numVisible)
        ⟨0, 0, (W : ℚ), if hG then ((H - 3 : Int) : ℚ) else (H : ℚ)⟩ ∧
      (cfg.grouped = true → hG = true) := by
  simp only [layoutTry] at h
  by_cases hg : 2 ≤ items.length - min mv items.length
  · rw [if_pos hg] at h
    by_cases hfit :
        allFitB (sq (items.take (min (mv - 1) items.length))
          ⟨0, 0, (W : ℚ), ((H - 3 : Int) : ℚ)⟩) = true
    · rw [if_pos hfit] at h
      have hcfg := Option.some.inj h
      subst hcfg
      exact ⟨hfit, Nat.min_le_right _ _, rfl, true, rfl, fun _ => rfl⟩
    · rw [if_neg hfit] at h
      cases h
  · rw [if_neg hg] at h
    by_cases hfit :
        allFitB (sq (items.take (min mv items.length))
          ⟨0, 0, (W : ℚ), (H : ℚ)⟩) = true
    · rw [if_pos hfit] at h
      have hcfg := Option.some.inj h
      subst hcfg
      refine ⟨hfit, Nat.min_le_right _ _, ?_, false, rfl, ?_⟩
      · simp [hg]
      · simp
    · rw [if_neg hfit] at h
      cases h

theorem layoutLoop_spec {sq : SqFn} {items : List ℚ} {W H : Int} :
    ∀ {m : Nat} {cfg : LoopCfg}, layoutLoop sq items W H m = some cfg →
      allFitB cfg.blocks = true ∧
      cfg.numVisible ≤ items.length ∧
      cfg.grouped = decide (2 ≤ items.length - cfg.numVisible) ∧
      ∃ hG : Bool,
        cfg.blocks = sq (items.take cfg.numVisible)
          ⟨0, 0, (W : ℚ), if hG then ((H - 3 : Int) : ℚ) else (H : ℚ)⟩ ∧
        (cfg.grouped = true → hG = true)
  | 0, cfg, h => by cases h
  | 1, cfg, h => by cases h
  | m + 2, cfg, h => by
    simp only [layoutLoop] at h
    cases htry : layoutTry sq items W H (m + 2) with
    | some cfg0 =>
      rw [htry] at h
      have : cfg0 = cfg := Option.some.inj h
      subst this
      exact layoutTry_spec htry
    | none =>
      rw [htry] at h
      exact layoutLoop_spec h

theorem qFloor_le_self (q : ℚ) : (qFloor q : ℚ) ≤ q := by
  rw [qFloor_eq_floor]
  exact Int.floor_le q

theorem convertOne_fit {W H HB : Int} {r : LRect} {i : Nat}
    (hx : 0 ≤ r.x) (hy : 0 ≤ r.y)
    (hxw : r.x + r.w ≤ (W : ℚ)) (hyh : r.y + r.h ≤ (HB : ℚ))
    (hbh : HB ≤ H) (hw : 8 ≤ intWOf r) (hh : 3 ≤ intHOf r) :
    ∃ b, convertOne W H r i = some b ∧ 8 ≤ b.width ∧ 3 ≤ b.height ∧
      b.y + b.height ≤ HB ∧ b.isGrouped = false := by
  have hx0 : 0 ≤ qFloor r.x := qFloor_nonneg hx
  have hy0 : 0 ≤ qFloor r.y := qFloor_nonneg hy
  have hendX : qFloor (r.x + r.w) ≤ W := qFloor_le_int hxw
  have hvpos : 0 ≤ r.y + r.h := by
    have h1 : (3 : Int) ≤ qFloor (r.y + r.h) := by
      have := hh
      rw [intHOf] at this
      omega
    have h2 : ((3 : Int) : ℚ) ≤ (qFloor (r.y + r.h) : ℚ) := by
      exact_mod_cast h1
    have h3 := qFloor_le_self (r.y + r.h)
    have h4 : ((3 : Int) : ℚ) ≤ r.y + r.h := le_trans h2 h3
    calc (0 : ℚ) ≤ ((3 : Int) : ℚ) := by norm_num
      _ ≤ r.y + r.h := h4
  have hendY1 : qFloor (r.y + r.h) ≤ goRound (r.y + r.h) :=
    goRound_ge_qFloor hvpos
  have hendY2 : goRound (r.y + r.h) ≤ HB := goRound_le_int hvpos hyh
  have hwpos : 8 ≤ qFloor (r.x + r.w) - qFloor r.x := hw
  have hhpos : 3 ≤ goRound (r.y + r.h) - qFloor r.y := by
    rw [intHOf] at hh
    omega
  refine ⟨⟨some i, qFloor r.x, qFloor r.y,
    qFloor (r.x + r.w) - qFloor r.x, goRound (r.y + r.h) - qFloor r.y,
    false, 0, 0⟩, ?_, ?_, ?_, ?_, rfl⟩
  · simp only [convertOne]
    rw [if_neg (by omega : ¬ qFloor r.x < 0), if_neg (by omega : ¬ qFloor r.y < 0),
      if_neg (by omega : ¬ W < qFloor (r.x + r.w)),
      if_neg (by omega : ¬ H < goRound (r.y + r.h))]
    rw [if_neg]
    push_neg
    refine ⟨by omega, by omega, by omega, by omega⟩
  · exact hw
  · exact hhpos
  · simpa using by omega

theorem convertAll_spec {W H HB : Int} (hbh : HB ≤ H) (hHB : 0 ≤ HB) :
    ∀ bs : List (LRect × Nat),
      (∀ b ∈ bs, 0 ≤ b.1.x ∧ 0 ≤ b.1.y ∧ b.1.x + b.1.w ≤ (W : ℚ) ∧
        b.1.y + b.1.h ≤ (HB : ℚ)) →
      (∀ b ∈ bs, 8 ≤ intWOf b.1 ∧ 3 ≤ intHOf b.1) →
      (∀ b ∈ (convertAll W H bs).1,
        8 ≤ b.width ∧ 3 ≤ b.height ∧ b.isGrouped = false) ∧
      (convertAll W H bs).2 ≤ HB
  | [], _, _ => by
    constructor
    · intro b hb
      simp [convertAll] at hb
    · simpa [convertAll] using hHB
  | (r, i) :: rest, hcont, hfit => by
    have hr := hcont (r, i) (List.mem_cons_self _ _)
    have hf := hfit (r, i) (List.mem_cons_self _ _)
    obtain ⟨b, hb, hbw, hbH, hbend, hbg⟩ :=
      @convertOne_fit W H HB r i hr.1 hr.2.1 hr.2.2.1 hr.2.2.2 hbh hf.1 hf.2
    have ih := convertAll_spec hbh hHB rest
      (fun x hx => hcont x (List.mem_cons_of_mem _ hx))
      (fun x hx => hfit x (List.mem_cons_of_mem _ hx))
    constructor
    · intro bb hbb
      simp only [convertAll, hb] at hbb
      rcases List.mem_cons.mp hbb with h1 | h1
      · subst h1
        exact ⟨hbw, hbH, hbg⟩
      · exact ih.1 bb h1
    · simp only [convertAll, hb]
      exact max_le hbend ih.2

theorem convertOne_shape (W H : Int) (r : LRect) (i : Nat) :
    convertOne W H r i = none ∨
      ∃ x y w h, convertOne W H r i = some ⟨some i, x, y, w, h, false, 0, 0⟩ := by
  simp only [convertOne]
  repeat' split
  all_goals first
    | exact Or.inl rfl
    | exact Or.inr ⟨_, _, _, _, rfl⟩

theorem convertOne_not_grouped {W H : Int} {r : LRect} {i : Nat} {b : LBlock}
    (h : convertOne W H r i = some b) : b.isGrouped = false := by
  rcases convertOne_shape W H r i with hs | ⟨x, y, w, hh, hs⟩
  · rw [hs] at h
    cases h
  · rw [hs] at h
    have := Option.some.inj h
    subst this
    rfl

theorem convertAll_not_grouped {W H : Int} :
    ∀ bs : List (LRect × Nat), ∀ b ∈ (convertAll W H bs).1,
      b.isGrouped = false
  | [], b, hb => by simp [convertAll] at hb
  | (r, i) :: rest, b, hb => by
    simp only [convertAll] at hb
    cases hc : convertOne W H r i with
    | none =>
      rw [hc] at hb
      exact convertAll_not_grouped rest b hb
    | some b0 =>
      rw [hc] at hb
      rcases List.mem_cons.mp hb with h1 | h1
      · subst h1
        exact convertOne_not_grouped hc
      · exact convertAll_not_grouped rest b h1

theorem adjustGrouped_of_none {H m : Int} :
    ∀ bs : List LBlock, (∀ b ∈ bs, b.isGrouped = false) →
      adjustGrouped H m bs = bs
  | [], _ => rfl
  | b :: bs, h => by
    have hb := h b (List.mem_cons_self _ _)
    simp only [adjustGrouped, hb]
    rw [if_neg (by simp [hb])]
    rw [adjustGrouped_of_none bs (fun x hx => h x (List.mem_cons_of_mem _ hx))]

theorem adjustGrouped_cons_grouped {H m : Int} {b : LBlock} {bs : List LBlock}
    (hb : b.isGrouped = true) :
    adjustGrouped H m (b :: bs) =
      { b with y := m, height := if H - m < 1 then 1 else H - m } :: bs := by
  simp only [adjustGrouped]
  rw [if_pos hb]

theorem allFitB_mem {bs : List (LRect × Nat)} (h : allFitB bs = true) :
    ∀ x ∈ bs, 8 ≤ intWOf x.1 ∧ 3 ≤ intHOf x.1 := by
  intro x hx
  have := List.all_eq_true.mp h x hx
  simpa using this

theorem layout_loop_min_dims {sq : SqFn} (hcont : SqContained sq)
    {childSizes : List Int} {W H : Int} (hW : 10 ≤ W) (hH : 5 ≤ H)
    {cfg : LoopCfg}
    (hcfg : layoutLoop sq (layoutItems childSizes) W H
      (min (layoutItems childSizes).length 15) = some cfg) :
    ∀ b ∈ layoutModel sq childSizes W H, 8 ≤ b.width ∧ 3 ≤ b.height := by
  intro b hb
  obtain ⟨hfit, hnv, hgr, hG, hblocks, hGimp⟩ := layoutLoop_spec hcfg
  have hHBle : (if hG then H - 3 else H) ≤ H := by
    cases hG <;> simp
  have hHB0 : 0 ≤ (if hG then H - 3 else H) := by
    cases hG <;> simp
    all_goals omega
  have hcont' : ∀ x ∈ cfg.blocks, 0 ≤ x.1.x ∧ 0 ≤ x.1.y ∧
      x.1.x + x.1.w ≤ (W : ℚ) ∧
      x.1.y + x.1.h ≤ (((if hG then H - 3 else H) : Int) : ℚ) := by
    intro x hx
    rw [hblocks] at hx
    have hc := hcont _ _ x hx
    refine ⟨by simpa using hc.1, by simpa using hc.2.1,
      by simpa using hc.2.2.1, ?_⟩
    have := hc.2.2.2
    cases hG <;> simpa using this
  have hfit' := allFitB_mem hfit
  have hconv := @convertAll_spec W H (if hG then H - 3 else H) hHBle hHB0
    cfg.blocks hcont' hfit'
  simp only [layoutModel, hcfg] at hb
  cases hgrb : cfg.grouped with
  | false =>
    rw [hgrb] at hb
    rw [if_neg (show ¬((false : Bool) = true) by simp)] at hb
    rw [List.nil_append] at hb
    rw [adjustGrouped_of_none _
      (convertAll_not_grouped cfg.blocks)] at hb
    have := hconv.1 b hb
    exact ⟨this.1, this.2.1⟩
  | true =>
    have hGt : hG = true := hGimp hgrb
    subst hGt
    rw [hgrb] at hb
    rw [if_pos (show (true : Bool) = true from rfl)] at hb
    rw [List.singleton_append] at hb
    rw [adjustGrouped_cons_grouped (by rfl)] at hb
    rcases List.mem_cons.mp hb with h1 | h1
    · subst h1
      have hend : (convertAll W H cfg.blocks).2 ≤ H - 3 := by
        simpa using hconv.2
      constructor
      · show 8 ≤ (groupedBlock W H ((layoutItems childSizes).length -
          cfg.numVisible) (groupSizeOf (layoutItems childSizes)
            cfg.numVisible)).width
        show 8 ≤ W
        omega
      · show 3 ≤ (if H - (convertAll W H cfg.blocks).2 < 1 then 1
          else H - (convertAll W H cfg.blocks).2)
        rw [if_neg (by omega)]
        omega
    · have := hconv.1 b h1
      exact ⟨this.1, this.2.1⟩

theorem groupedBlock_isGrouped (W H : Int) (c : Nat) (s : Int) :
    (groupedBlock W H c s).isGrouped = true := rfl

theorem layout_grouped_block {sq : SqFn} {childSizes : List Int} {W H : Int} :
    (∀ cfg : LoopCfg,
      layoutLoop sq (layoutItems childSizes) W H
        (min (layoutItems childSizes).length 15) = some cfg →
      ((∃ g ∈ layoutModel sq childSizes W H, g.isGrouped = true) ↔
        2 ≤ (layoutItems childSizes).length - cfg.numVisible) ∧
      (∀ g ∈ layoutModel sq childSizes W H, g.isGrouped = true →
        g.groupCount = (layoutItems childSizes).length - cfg.numVisible ∧
        g.groupSize = groupSizeOf (layoutItems childSizes) cfg.numVisible)) ∧
    (layoutLoop sq (layoutItems childSizes) W H
        (min (layoutItems childSizes).length 15) = none →
      0 < (layoutItems childSizes).length →
      ((∃ g ∈ layoutModel sq childSizes W H, g.isGrouped = true) ↔
        2 < (layoutItems childSizes).length) ∧
      (∀ g ∈ layoutModel sq childSizes W H, g.isGrouped = true →
        g.groupCount = (layoutItems childSizes).length - 1 ∧
        g.groupSize = groupSizeOf (layoutItems childSizes) 1)) ∧
    ((layoutItems childSizes).length = 0 →
      layoutModel sq childSizes W H = []) := by
  refine ⟨?_, ?_, ?_⟩
  · intro cfg hcfg
    obtain ⟨-, -, hgr, -, -, -⟩ := layoutLoop_spec hcfg
    have hout : layoutModel sq childSizes W H =
        adjustGrouped H (convertAll W H cfg.blocks).2
          ((if cfg.grouped then
              [groupedBlock W H
                ((layoutItems childSizes).length - cfg.numVisible)
                (groupSizeOf (layoutItems childSizes) cfg.numVisible)]
            else []) ++ (convertAll W H cfg.blocks).1) := by
      simp only [layoutModel, hcfg]
    cases hgrb : cfg.grouped with
    | false =>
      rw [hgrb] at hout
      rw [if_neg (show ¬((false : Bool) = true) by simp),
        List.nil_append,
        adjustGrouped_of_none _ (convertAll_not_grouped cfg.blocks)] at hout
      have hprop : ¬ (2 ≤ (layoutItems childSizes).length - cfg.numVisible) := by
        rw [hgrb] at hgr
        simpa using hgr.symm
      constructor
      · constructor
        · rintro ⟨g, hg, hgt⟩
          rw [hout] at hg
          have := convertAll_not_grouped cfg.blocks g hg
          rw [this] at hgt
          cases hgt
        · intro h2
          exact absurd h2 hprop
      · intro g hg hgt
        rw [hout] at hg
        have := convertAll_not_grouped cfg.blocks g hg
        rw [this] at hgt
        cases hgt
    | true =>
      rw [hgrb] at hout
      rw [if_pos (show (true : Bool) = true from rfl),
        List.singleton_append,
        adjustGrouped_cons_grouped (by rfl)] at hout
      have hprop : 2 ≤ (layoutItems childSizes).length - cfg.numVisible := by
        rw [hgrb] at hgr
        exact of_decide_eq_true hgr.symm
      constructor
      · constructor
        · intro _
          exact hprop
        · intro _
          rw [hout]
          exact ⟨_, List.mem_cons_self _ _, rfl⟩
      · intro g hg hgt
        rw [hout] at hg
        rcases List.mem_cons.mp hg with h1 | h1
        · subst h1
          exact ⟨rfl, rfl⟩
        · have := convertAll_not_grouped cfg.blocks g h1
          rw [this] at hgt
          cases hgt
  · intro hnone hlen
    have hout : layoutModel sq childSizes W H =
        adjustGrouped H
          (convertAll W H (sq ((layoutItems childSizes).take 1)
            ⟨0, 0, (W : ℚ),
              if 2 < (layoutItems childSizes).length then ((H - 3 : Int) : ℚ)
              else (H : ℚ)⟩)).2
          ((if 2 < (layoutItems childSizes).length then
              [groupedBlock W H ((layoutItems childSizes).length - 1)
                (groupSizeOf (layoutItems childSizes) 1)]
            else []) ++
            (convertAll W H (sq ((layoutItems childSizes).take 1)
              ⟨0, 0, (W : ℚ),
                if 2 < (layoutItems childSizes).length then ((H - 3 : Int) : ℚ)
                else (H : ℚ)⟩)).1) := by
      simp only [layoutModel, hnone, if_pos hlen]
    by_cases h2 : 2 < (layoutItems childSizes).length
    · rw [if_pos h2, if_pos h2, List.singleton_append,
        adjustGrouped_cons_grouped (by rfl)] at hout
      constructor
      · constructor
        · intro _
          exact h2
        · intro _
          rw [hout]
          exact ⟨_, List.mem_cons_self _ _, rfl⟩
      · intro g hg hgt
        rw [hout] at hg
        rcases List.mem_cons.mp hg with h1 | h1
        · subst h1
          exact ⟨rfl, rfl⟩
        · have := convertAll_not_grouped _ g h1
          rw [this] at hgt
          cases hgt
    · rw [if_neg h2, if_neg h2, List.nil_append,
        adjustGrouped_of_none _ (convertAll_not_grouped _)] at hout
      constructor
      · constructor
        · rintro ⟨g, hg, hgt⟩
          rw [hout] at hg
          have := convertAll_not_grouped _ g hg
          rw [this] at hgt
          cases hgt
        · intro hh
          exact absurd hh h2
      · intro g hg hgt
        rw [hout] at hg
        have := convertAll_not_grouped _ g hg
        rw [this] at hgt
        cases hgt
  · intro hlen0
    simp only [layoutModel, hlen0]
    rw [show layoutLoop sq (layoutItems childSizes) W H (min 0 15) = none
      from rfl]
    simp

theorem sqFull_contained : SqContained sqFull := by
  intro sizes rect b hb
  simp only [sqFull, List.mem_map] at hb
  obtain ⟨p, -, hp⟩ := hb
  subst hp
  refine ⟨le_refl _, le_refl _, ?_, ?_⟩ <;> simp

/-! ## Claim theorems

Concrete fixtures used by the counterexamples and witnesses: a directory
`d` of cached size 100 containing one file `f` of size 40, as built by a
scan (both deletion fields zeroed). -/

def nodeF : GoNode := .mk ["d", "f"] "f" 40 false false 0 []

def nodeD : GoNode := .mk ["d"] "d" 100 true false 0 [nodeF]

/-- C1 counterexample: mark the file `f` first, then its parent directory
`d`.  The claim (spec I4 plus "`N.deleted_size += s`, an increment, not an
overwrite") demands `d.DeletedSize = 40 + 100` afterwards; the code's
`MarkDeleted` assigns `n.DeletedSize = size`, so `d.DeletedSize` ends up
`100` — the file's earlier contribution is overwritten. -/
theorem C1_counterexample :
    deletedSizeAt (runMarks nodeD [[0], []]) [] = some 100 ∧
    ¬ deletedSizeAt (runMarks nodeD [[0], []]) [] = some (40 + 100) := by
  decide

/-- C1 (amended): `MarkDeleted` on a live node sets the node's own
`DeletedSize` to the snapshot `s` of its size (an overwrite), flags it, and
adds `s` to every strict ancestor's `DeletedSize`; consequently the I4 sum
(`N.deleted_size = Σ size-at-deletion-time of marked nodes in N's subtree`)
holds after any sequence of deletions on a freshly scanned tree in which no
node is marked after a node of its own subtree — marking an ancestor after a
descendant instead overwrites the descendant's contribution out of the
ancestor's counter (see the counterexample). -/
theorem C1_deleted_size_amended :
    (∀ (t tgt : GoNode) (p : List Nat), getAt t p = some tgt →
      tgt.isDeleted = false →
      deletedAt (markDeletedAt t p) p = some true ∧
      deletedSizeAt (markDeletedAt t p) p = some tgt.size ∧
      ∀ q, pathLe q p = true → q ≠ p →
        deletedSizeAt (markDeletedAt t p) q =
          (deletedSizeAt t q).map (· + tgt.size)) ∧
    (∀ (t0 : GoNode) (ops : List (List Nat)), unmarked t0 = true →
      List.Pairwise (fun a b => pathLe b a = true → b = a) ops →
      ∀ q n, getAt t0 q = some n →
        deletedSizeAt (runMarks t0 ops) q =
          some (marksSum t0 (effList t0 ops) q)) := by
  constructor
  · intro t tgt p hg hd
    rw [markDeletedAt_of_live hg hd]
    refine ⟨?_, deletedSizeAt_markAux_self hg, ?_⟩
    · rw [deletedAt, getAt_markAux_self p t tgt tgt.size hg]
      rfl
    · intro q hle hne
      exact deletedSizeAt_markAux_ancestor p q t tgt tgt.size hg hle hne
  · intro t0 ops hu hord
    exact runMarks_deletedSize hu hord

/-- C1 witness: an ancestor-before-descendant run (`d` then `f`) on the
fixture, with the ledger evaluating to the expected 140 at the root. -/
theorem C1_deleted_size_amended_witness :
    (deletedAt (markDeletedAt nodeD [0]) [0] = some true ∧
      deletedSizeAt (markDeletedAt nodeD [0]) [0] = some nodeF.size ∧
      ∀ q, pathLe q [0] = true → q ≠ [0] →
        deletedSizeAt (markDeletedAt nodeD [0]) q =
          (deletedSizeAt nodeD q).map (· + nodeF.size)) ∧
    deletedSizeAt (runMarks nodeD [[], [0]]) [] =
      some (marksSum nodeD (effList nodeD [[], [0]]) []) ∧
    marksSum nodeD (effList nodeD [[], [0]]) [] = 140 :=
  ⟨C1_deleted_size_amended.1 nodeD nodeF [0] rfl (by decide),
   C1_deleted_size_amended.2 nodeD [[], [0]] (by decide) (by decide) []
     nodeD rfl,
   by decide⟩

def childC : GoNode := .mk ["x"] "x" 5 false false 0 []

/-- C2 counterexample: `AddChild` with a child whose `Parent` pointer is
already set.  The claim says the call fails with `InvariantViolation` and
leaves the tree unchanged; the Go method has no error return and performs no
check — it appends the child and grows the receiver's size regardless (the
spec-following model `addChildSpec` is the one that errors). -/
theorem C2_counterexample :
    addChildSpec nodeD [] childC true =
      Except.error GoErr.invariantViolation ∧
    (addChildAt nodeD [] childC true).children.length = 2 ∧
    (addChildAt nodeD [] childC true).size = 105 ∧
    nodeD.size = 100 :=
  ⟨rfl, by decide⟩

/-- C2 (amended): `AddChild` appends the child to the target's `Children`,
adds the child's `TotalSize` to the target's `Size` and to the `Size` of
every strict ancestor, and leaves unrelated nodes untouched — always: it
never inspects the child's `Parent` pointer (the result is identical whether
or not the child already had a parent) and it cannot fail. -/
theorem C2_add_child_amended :
    (∀ (t : GoNode) (p : List Nat) (c : GoNode),
      addChildAt t p c true = addChildAt t p c false) ∧
    (∀ (t tgt c : GoNode) (p : List Nat) (b : Bool), getAt t p = some tgt →
      getAt (addChildAt t p c b) p =
        some (.mk tgt.path tgt.name (tgt.size + c.totalSize) tgt.isDir
          tgt.isDeleted tgt.deletedSize (tgt.children ++ [c])) ∧
      (∀ q, pathLe q p = true → q ≠ p →
        sizeAt (addChildAt t p c b) q = (sizeAt t q).map (· + c.totalSize)) ∧
      (∀ q, pathLe q p = false → pathLe p q = false →
        getAt (addChildAt t p c b) q = getAt t q)) := by
  constructor
  · intro t p c
    exact addChildAt_flag_blind p t c
  · intro t tgt c p b hg
    exact ⟨getAt_addChildAt_self p t tgt c b hg,
      fun q hle hne => sizeAt_addChildAt_ancestor p q t tgt c b hg hle hne,
      fun q h1 h2 => getAt_addChildAt_outside p q t c b h1 h2⟩

/-- C2 witness: adding a 5-byte child under the file position `[0]` of the
fixture grows the root's size to 105 and the target's to 45. -/
theorem C2_add_child_amended_witness :
    addChildAt nodeD [0] childC true = addChildAt nodeD [0] childC false ∧
    sizeAt (addChildAt nodeD [0] childC true) [] = some 105 ∧
    getAt (addChildAt nodeD [0] childC true) [0] =
      some (.mk nodeF.path nodeF.name (nodeF.size + childC.totalSize)
        nodeF.isDir nodeF.isDeleted nodeF.deletedSize
        (nodeF.children ++ [childC])) := by
  refine ⟨C2_add_child_amended.1 nodeD [0] childC, ?_, ?_⟩
  · have h := (C2_add_child_amended.2 nodeD nodeF childC [0] true rfl).2.1
      [] (by decide) (by decide)
    rw [h]
    decide
  · exact (C2_add_child_amended.2 nodeD nodeF childC [0] true rfl).1

/-! ### C3: walker cancellation -/

def entryA : WalkEntry := ⟨["r", "a"], "a", 5, false⟩

def entryB : WalkEntry := ⟨["r", "b"], "b", 7, false⟩

/-- C3 counterexample: a scan of two entries whose context is cancelled
after the first.  The claim says `Scan` returns the `Canceled` error; the
code's dispatch (`if walkErr != nil && walkErr != ctx.Err()`) deliberately
filters the cancellation error out and returns the partial tree with a nil
error. -/
theorem C3_counterexample :
    scanModel ["r"] [entryA, entryB] (some 1) =
      Except.ok (buildTree ["r"] [entryA]) ∧
    ¬ scanModel ["r"] [entryA, entryB] (some 1) =
      Except.error GoErr.canceled := by
  constructor
  · rfl
  · intro h
    rw [show scanModel ["r"] [entryA, entryB] (some 1) =
      Except.ok (buildTree ["r"] [entryA]) from rfl] at h
    exact Except.noConfusion h

/-- C3 (amended): when the cancellation token trips before the walk
completes, `Walker.Scan` stops collecting entries but returns the partial
tree built from the entries seen so far, with a nil error — the cancellation
error equals `ctx.Err()` and is explicitly excluded from the error return;
only walk errors other than the context's own error are surfaced. -/
theorem C3_cancel_amended :
    ∀ (rootPath : List String) (entries : List WalkEntry) (k : Nat),
      k < entries.length →
      scanModel rootPath entries (some k) =
        Except.ok (buildTree rootPath (entries.take k)) := by
  intro rootPath entries k hk
  simp [scanModel, cancelOutcome, scanDispatch, hk]

/-- C3 witness: the amended behaviour at the concrete cancelled scan. -/
theorem C3_cancel_amended_witness :
    scanModel ["r"] [entryA, entryB] (some 1) =
      Except.ok (buildTree ["r"] ([entryA, entryB].take 1)) :=
  C3_cancel_amended ["r"] [entryA, entryB] 1 (by decide)

/-- C4: `MarkDeleted` is idempotent — the second and every later call on
the same node changes nothing; the controller's `handleDeletion` adds
exactly the node's `TotalSize` snapshot to `freed.Session` and
`freed.Lifetime` on the first effective call, emits the
`DeletionDetectedEvent` then, drops repeat events for the same path, and
over any run of the watcher loop at most one `DeletionDetectedEvent` is
emitted per path. -/
theorem C4_deletion_idempotent :
    (∀ (t : GoNode) (p : List Nat),
      markDeletedAt (markDeletedAt t p) p = markDeletedAt t p) ∧
    (∀ (s : DelState) (path : List String) (ip : List Nat) (node : GoNode),
      locateByPath s.tree path = some ip → getAt s.tree ip = some node →
      node.isDeleted = false →
      (handleDeletion s path).1.session = s.session + node.totalSize ∧
      (handleDeletion s path).1.lifetime = s.lifetime + node.totalSize ∧
      (handleDeletion s path).2 = some ⟨path, node.totalSize,
        s.session + node.totalSize, s.lifetime + node.totalSize⟩ ∧
      handleDeletion (handleDeletion s path).1 path =
        ((handleDeletion s path).1, none)) ∧
    (∀ (s : DelState) (ps : List (List String)) (path : List String),
      ((runDeletions s ps).2.countP (fun e => decide (e.path = path))) ≤ 1) := by
  refine ⟨markDeletedAt_idem, ?_, fun s ps path => runDeletions_at_most_once path ps s⟩
  intro s path ip node hl hg hd
  have heff := handleDeletion_effective hl hg hd
  refine ⟨?_, ?_, ?_, ?_⟩
  · rw [heff]
    rfl
  · rw [heff]
    rfl
  · rw [heff]
    rfl
  have hfl : flagged (handleDeletion s path).1 path :=
    flagged_after_event (by rw [heff])
  have hnoop := handleDeletion_noop hfl
  rw [hnoop]

/-- C4 witness: deleting the file `d/f` of the fixture once frees 40 bytes
and emits one event; the repeat delivery is dropped. -/
theorem C4_deletion_idempotent_witness :
    markDeletedAt (markDeletedAt nodeD [0]) [0] = markDeletedAt nodeD [0] ∧
    (handleDeletion ⟨nodeD, 0, 7⟩ ["d", "f"]).1.session = 0 + nodeF.totalSize ∧
    (handleDeletion ⟨nodeD, 0, 7⟩ ["d", "f"]).2 = some ⟨["d", "f"],
      nodeF.totalSize, 0 + nodeF.totalSize, 7 + nodeF.totalSize⟩ ∧
    ((runDeletions ⟨nodeD, 0, 7⟩ [["d", "f"], ["d", "f"]]).2.countP
      (fun e => decide (e.path = ["d", "f"]))) ≤ 1 := by
  have h := C4_deletion_idempotent.2.1 ⟨nodeD, 0, 7⟩ ["d", "f"] [0] nodeF
    rfl rfl (by decide)
  exact ⟨C4_deletion_idempotent.1 nodeD [0], h.1, h.2.2.1,
    C4_deletion_idempotent.2.2 ⟨nodeD, 0, 7⟩ [["d", "f"], ["d", "f"]]
      ["d", "f"]⟩

/-- C5: after `ComputeSizes` runs on a well-formed scanned tree (no file
node carries children), every directory's `Size` equals the sum of its
children's `Size`, files keep their scanned sizes, and the return value is
the root's resulting total. -/
theorem C5_compute_sizes :
    ∀ t : GoNode, wfNode t = true →
      ((computeSizes t).2 = ((computeSizes t).1).size) ∧
      (∀ q d, getAt (computeSizes t).1 q = some d → d.isDir = true →
        d.size = (d.children.map GoNode.size).sum) ∧
      (∀ q f, getAt t q = some f → f.isDir = false →
        sizeAt (computeSizes t).1 q = some f.size) := by
  intro t hw
  refine ⟨computeSizes_snd t, ?_, ?_⟩
  · intro q d hq hdir
    rw [getAt_computeSizes q t hw] at hq
    cases hsrc : getAt t q with
    | none => rw [hsrc] at hq; cases hq
    | some s =>
      rw [hsrc] at hq
      have hds : d = (computeSizes s).1 := by simpa using hq.symm
      cases s with
      | mk pa na sz sd del ds cs =>
        cases sd with
        | true =>
          have hd1 : (computeSizes (GoNode.mk pa na sz true del ds cs)).1 =
              .mk pa na (computeSizesList cs).2 true del ds
                (computeSizesList cs).1 := by
            simp [computeSizes]
          rw [hd1] at hds
          subst hds
          exact computeSizesList_snd cs
        | false =>
          have hd1 : (computeSizes (GoNode.mk pa na sz false del ds cs)).1 =
              .mk pa na sz false del ds cs := by
            simp [computeSizes]
          rw [hd1] at hds
          subst hds
          cases hdir
  · intro q f hq hf
    rw [sizeAt, getAt_computeSizes q t hw, hq]
    cases f with
    | mk pa na sz sd del ds cs =>
      cases sd with
      | true => cases hf
      | false => simp [computeSizes, GoNode.size]

/-- C5 witness: on the fixture tree (after zeroing the cached directory
size, as the walker leaves it), `ComputeSizes` computes 40 for the root and
the file keeps its size. -/
theorem C5_compute_sizes_witness :
    ((computeSizes (GoNode.mk ["d"] "d" 0 true false 0 [nodeF])).2 =
      ((computeSizes (GoNode.mk ["d"] "d" 0 true false 0 [nodeF])).1).size) ∧
    (∀ q d, getAt (computeSizes
        (GoNode.mk ["d"] "d" 0 true false 0 [nodeF])).1 q = some d →
      d.isDir = true → d.size = (d.children.map GoNode.size).sum) :=
  have h := C5_compute_sizes (GoNode.mk ["d"] "d" 0 true false 0 [nodeF])
    (by decide)
  ⟨h.1, h.2.1⟩

def nodeA6 : GoNode := .mk ["a"] "a" 100 false false 0 []

def nodeB6 : GoNode := .mk ["b"] "b" 100 false false 0 []

/-- C6 counterexample: two nodes of equal `TotalSize` listed as `b` before
`a`.  The claim demands the tie be broken by ascending name (`a` first);
`SortBySize`'s comparator looks only at the sizes, so the input order is
kept and `b` stays first. -/
theorem C6_counterexample :
    (sortBySize [nodeB6, nodeA6]).map GoNode.name = ["b", "a"] ∧
    ¬ (sortBySize [nodeB6, nodeA6]).map GoNode.name = ["a", "b"] := by
  decide

/-- C6 (amended): `SortBySize` reorders any node list into descending order
of `TotalSize` (a permutation of the input); it applies no name tie-break —
for slices shorter than 12 Go's `sort.Slice` runs a stable insertion sort,
so equal-sized nodes simply keep their input order, and for longer slices
the unstable pdqsort gives no ordering guarantee between equal-sized nodes
at all. -/
theorem C6_sort_amended :
    ∀ l : List GoNode,
      (sortBySize l).Perm l ∧
      (sortBySize l).Pairwise (fun a b => b.totalSize ≤ a.totalSize) :=
  fun l => ⟨sortBySize_perm l, sortBySize_sorted l⟩

def cstate0 : CState :=
  ⟨[⟨"C"⟩], 0, "", 100, 250, .idle, none, ""⟩

/-- C9 counterexample: a controller with 100 bytes of session credit starts
a re-scan of the already selected drive via `StartScan`.  The claim says
`freed.Session` is reset to 0; `StartScan` resets only the scan state, the
scanner and the published tree — the session counter stays at 100. -/
theorem C9_counterexample :
    (startScan cstate0).2 = true ∧
    (startScan cstate0).1.session = 100 ∧
    ¬ (startScan cstate0).1.session = 0 := by
  decide

/-- C9 (amended): `SelectDrive` on a valid index resets `freed.Session` to 0
and leaves `freed.Lifetime` unchanged; `StartScan` touches neither — the
session counter survives a re-scan started without re-selecting a drive. -/
theorem C9_freed_reset_amended :
    (∀ (c : CState) (idx : Int) (d : DriveM), 0 ≤ idx →
      idx < (c.drives.length : Int) → c.drives[idx.toNat]? = some d →
      (selectDrive c idx).session = 0 ∧
      (selectDrive c idx).lifetime = c.lifetime) ∧
    (∀ c : CState, (startScan c).1.session = c.session ∧
      (startScan c).1.lifetime = c.lifetime) := by
  constructor
  · intro c idx d h0 hlen hd
    rw [selectDrive, if_neg (by omega), hd]
    exact ⟨rfl, rfl⟩
  · intro c
    by_cases h : scanPathOf c = "" <;> simp [startScan, h]

/-- C9 witness: the amended behaviour on the concrete controller state. -/
theorem C9_freed_reset_amended_witness :
    ((selectDrive cstate0 0).session = 0 ∧
      (selectDrive cstate0 0).lifetime = cstate0.lifetime) ∧
    ((startScan cstate0).1.session = cstate0.session ∧
      (startScan cstate0).1.lifetime = cstate0.lifetime) :=
  ⟨C9_freed_reset_amended.1 cstate0 0 ⟨"C"⟩ (by decide) (by decide)
      (by decide),
    C9_freed_reset_amended.2 cstate0⟩

/-- C10: `MarkDeleted` is frame-exact — the deletion-stripped tree is
unchanged (so no node's `Path`, `Name`, `Size`, `IsDir` or child structure
moves), `IsDeleted` is untouched everywhere except at the marked node itself
(in particular the node's descendants are not recursively marked and keep
contributing their full size to live totals), and `DeletedSize` changes only
at the marked node and its ancestors. -/
theorem C10_mark_deleted_frame :
    ∀ (t : GoNode) (p : List Nat),
      stripDel (markDeletedAt t p) = stripDel t ∧
      (∀ q, q ≠ p → deletedAt (markDeletedAt t p) q = deletedAt t q) ∧
      (∀ q, pathLe q p = false →
        deletedSizeAt (markDeletedAt t p) q = deletedSizeAt t q) := by
  intro t p
  refine ⟨stripDel_markDeletedAt t p, fun q hq => deletedAt_markDeletedAt_ne hq, ?_⟩
  intro q hq
  cases hg : getAt t p with
  | none => rw [markDeletedAt_of_none hg]
  | some tgt =>
    cases hd : tgt.isDeleted with
    | true => rw [markDeletedAt_of_deleted hg hd]
    | false =>
      rw [markDeletedAt_of_live hg hd]
      exact deletedSizeAt_markAux_outside p q t tgt.size hq

/-- C10 witness: marking `d/f` in the fixture leaves the stripped tree, the
root's flag and off-chain deletion counters alone. -/
theorem C10_mark_deleted_frame_witness :
    stripDel (markDeletedAt nodeD [0]) = stripDel nodeD ∧
    deletedAt (markDeletedAt nodeD [0]) [] = deletedAt nodeD [] ∧
    deletedSizeAt (markDeletedAt nodeD [0]) [1] = deletedSizeAt nodeD [1] :=
  ⟨(C10_mark_deleted_frame nodeD [0]).1,
   (C10_mark_deleted_frame nodeD [0]).2.1 [] (by decide),
   (C10_mark_deleted_frame nodeD [0]).2.2 [1] (by decide)⟩

unseal Rat.add Rat.mul Rat.sub Rat.inv in
/-- C7 counterexample: four children of sizes 1000, 1, 1, 1 in a 10×5
content rectangle (which satisfies the claim's preconditions
`width ≥ MinBlockWidth + 2` and `height ≥ MinBlockHeight + 2`).  No
configuration of ≥ 2 items passes the minimum-size check, so the
fewer-than-2-items fallback runs: it reserves the 3-row grouped strip and
lays the single main block in the remaining 10×2 area without re-checking
the minimum — the emitted main block is 2 rows tall, below
`MinBlockHeight = 3`. -/
theorem C7_counterexample :
    (10 : Int) = 8 + 2 ∧ (5 : Int) = 3 + 2 ∧
    ∃ b ∈ layoutModel squarifyModel [1000, 1, 1, 1] 10 5,
      b.height < 3 := by
  decide

/-- C7 (amended): whenever the `maxVisible` search loop accepts a
configuration (at least 2 items fit), every emitted block — main blocks and
the grouped strip — has integer width ≥ 8 and height ≥ 3, for every
squarify primitive that keeps its blocks inside the rectangle it is given;
the guarantee does not extend to the fewer-than-2-items fallback, whose
single main block can be as short as `height − 3` rows (see the
counterexample). -/
theorem C7_min_dims_amended :
    ∀ sq : SqFn, SqContained sq →
      ∀ (childSizes : List Int) (W H : Int), 10 ≤ W → 5 ≤ H →
      ∀ cfg : LoopCfg,
        layoutLoop sq (layoutItems childSizes) W H
          (min (layoutItems childSizes).length 15) = some cfg →
        ∀ b ∈ layoutModel sq childSizes W H, 8 ≤ b.width ∧ 3 ≤ b.height :=
  fun _ hcont _ _ _ hW hH _ hcfg => layout_loop_min_dims hcont hW hH hcfg

def cfg7 : LoopCfg := ⟨[(⟨0, 0, 20, 10⟩, 0), (⟨0, 0, 20, 10⟩, 1)], 2, false⟩

unseal Rat.add Rat.mul Rat.sub Rat.inv in
/-- C7 witness: a 20×10 rectangle with two children, laid out through the
full-rectangle oracle `sqFull`; the loop accepts at `maxVisible = 2` and the
emitted block meets the minimums. -/
theorem C7_min_dims_amended_witness :
    8 ≤ (⟨some 0, 0, 0, 20, 10, false, 0, 0⟩ : LBlock).width ∧
    3 ≤ (⟨some 0, 0, 0, 20, 10, false, 0, 0⟩ : LBlock).height :=
  C7_min_dims_amended sqFull sqFull_contained [100, 50] 20 10 (by decide)
    (by decide) cfg7 (by decide) _ (by decide)

unseal Rat.add Rat.mul Rat.sub Rat.inv in
/-- C8 counterexample: three children of sizes 5, 0, 0 in a 10×5 content
rectangle.  The layout hides the two zero-sized children behind a grouped
block, but their sizes were clamped to 1 each before layout, so the
recorded `GroupSize` is 2 while the hidden children's sizes sum to 0. -/
theorem C8_counterexample :
    (layoutModel squarifyModel [5, 0, 0] 10 5).filter
      (fun b => b.isGrouped) = [⟨none, 0, 2, 10, 3, true, 2, 2⟩] ∧
    ((sortIntsDesc [5, 0, 0]).drop 1).sum = 0 ∧
    ¬ (⟨none, 0, 2, 10, 3, true, 2, 2⟩ : LBlock).groupSize =
      ((sortIntsDesc [5, 0, 0]).drop 1).sum := by
  decide

/-- C8 (amended): a grouped placeholder is emitted iff at least 2 of the
sorted children are hidden (not displayed) — `numVisible` many in an
accepted loop configuration, exactly one in the fallback, none of a
childless focus — and the placeholder records `GroupCount` = number of
hidden children and `GroupSize` = the sum of the hidden children's sizes
after the `max 1` clamp the layout applies to every item, which exceeds the
plain sum when a hidden child has size 0. -/
theorem C8_grouping_amended :
    ∀ (sq : SqFn) (childSizes : List Int) (W H : Int),
      (∀ cfg : LoopCfg,
        layoutLoop sq (layoutItems childSizes) W H
          (min (layoutItems childSizes).length 15) = some cfg →
        ((∃ g ∈ layoutModel sq childSizes W H, g.isGrouped = true) ↔
          2 ≤ (layoutItems childSizes).length - cfg.numVisible) ∧
        (∀ g ∈ layoutModel sq childSizes W H, g.isGrouped = true →
          g.groupCount = (layoutItems childSizes).length - cfg.numVisible ∧
          g.groupSize = groupSizeOf (layoutItems childSizes) cfg.numVisible)) ∧
      (layoutLoop sq (layoutItems childSizes) W H
          (min (layoutItems childSizes).length 15) = none →
        0 < (layoutItems childSizes).length →
        ((∃ g ∈ layoutModel sq childSizes W H, g.isGrouped = true) ↔
          2 < (layoutItems childSizes).length) ∧
        (∀ g ∈ layoutModel sq childSizes W H, g.isGrouped = true →
          g.groupCount = (layoutItems childSizes).length - 1 ∧
          g.groupSize = groupSizeOf (layoutItems childSizes) 1)) ∧
      ((layoutItems childSizes).length = 0 →
        layoutModel sq childSizes W H = []) :=
  fun _ _ _ _ => layout_grouped_block

unseal Rat.add Rat.mul Rat.sub Rat.inv in
/-- C8 witness: the grouped block of the 5/0/0 fallback scenario carries
the code's hidden count and clamped sum. -/
theorem C8_grouping_amended_witness :
    (⟨none, 0, 2, 10, 3, true, 2, 2⟩ : LBlock).groupCount =
      (layoutItems [5, 0, 0]).length - 1 ∧
    (⟨none, 0, 2, 10, 3, true, 2, 2⟩ : LBlock).groupSize =
      groupSizeOf (layoutItems [5, 0, 0]) 1 :=
  ((C8_grouping_amended squarifyModel [5, 0, 0] 10 5).2.1 (by decide)
    (by decide)).2 ⟨none, 0, 2, 10, 3, true, 2, 2⟩ (by decide) (by decide)
